import Mathlib

/-!
Verification of the oracle-synthesis engine of `pyLIQTR/QSP/qsp_select_v.py`.

The circuits produced by the source consist of `X`, `CX`, `CCX`, phase gates
(`Z`, `CZ`, `S`, `S†`) and opaque payload operators invoked with one
activation wire.  On computational basis states all of these act classically
(phase gates act as the identity on bit values), so the code is embedded as a
gate-list generator together with a classical simulator over a record of
address, ancilla, select and target bits.  A payload invocation is recorded in
a `fired` log when its activation wire reads 1.
-/

namespace QSPSelV


/-- Wires of the oracle circuit: address bits and ancilla bits indexed by bit
significance (index `i` corresponds to `addrQubits[i]` and `ancQubits[i]` in
the source, i.e. to `ctl_q[W-1-i]` and `anc_q[W-1-i]`), the global select
(phase) wire, and target bits. -/
inductive Qubit where
| addr (i : Nat)
| anc (i : Nat)
| sel
| tgt (i : Nat)
deriving DecidableEq

/-- Elementary instructions appearing in the synthesized circuits.  `payload k c`
stands for the opaque payload operator of key `k` invoked with activation wire
`c` (the source expression `operators[k](c, targets)`). -/
inductive Gate where
| X (q : Qubit)
| CX (c t : Qubit)
| CCX (c0 c1 t : Qubit)
| Z (q : Qubit)
| CZ (c t : Qubit)
| S (q : Qubit)
| Sinv (q : Qubit)
| payload (k : Nat) (c : Qubit)
deriving DecidableEq

/-- A computational basis state of the register, together with the log of
payload operators that fired. -/
structure SimState where
  addr : Nat → Bool
  sel : Bool
  anc : Nat → Bool
  tgt : Nat → Bool
  fired : List Nat

/-- Read the bit value carried by a wire. -/
def readQ (s : SimState) : Qubit → Bool
| .addr i => s.addr i
| .anc i => s.anc i
| .sel => s.sel
| .tgt i => s.tgt i

/-- Flip the bit value carried by a wire. -/
def flipQ (q : Qubit) (s : SimState) : SimState :=
  match q with
  | .addr i => { s with addr := fun j => if j = i then ! s.addr j else s.addr j }
  | .anc i => { s with anc := fun j => if j = i then ! s.anc j else s.anc j }
  | .sel => { s with sel := ! s.sel }
  | .tgt i => { s with tgt := fun j => if j = i then ! s.tgt j else s.tgt j }

/-- Classical action of one gate on a basis state.  Phase gates leave bit
values unchanged; a payload fires (is logged) exactly when its activation wire
reads 1. -/
def execGate (s : SimState) : Gate → SimState
| .X q => flipQ q s
| .CX c t => if readQ s c then flipQ t s else s
| .CCX c0 c1 t => if readQ s c0 && readQ s c1 then flipQ t s else s
| .Z _ => s
| .CZ _ _ => s
| .S _ => s
| .Sinv _ => s
| .payload k c => if readQ s c then { s with fired := s.fired ++ [k] } else s

/-- Run a gate list left to right. -/
def execGates (gs : List Gate) (s : SimState) : SimState :=
  gs.foldl execGate s

/-- Embedding of the source function `toffoli`: a doubly controlled flip with
selectable control polarities, realized by basis-change `X` gates around a
`CCX`. -/
def toffoli (b0 b1 : Bool) (ctl0 ctl1 trgt : Qubit) : List Gate :=
  let basis_change :=
    (if b0 then [] else [Gate.X ctl0]) ++ (if b1 then [] else [Gate.X ctl1])
  basis_change ++ [Gate.CCX ctl0 ctl1 trgt] ++ basis_change.reverse

/-! ### AddressCodec: `constructBooleanTree`, `incrementBooleanTree`, `h_distance` -/

/-- Embedding of `bin(n)[2:]` for positive `n`: binary digits, most significant
first, as booleans (digit `1` mapped to `true`). -/
def binDigits (n : Nat) : List Bool :=
  if h : n = 0 then [] else binDigits (n / 2) ++ [decide (n % 2 = 1)]
termination_by n
decreasing_by exact Nat.div_lt_self (Nat.pos_of_ne_zero h) one_lt_two

/-- Embedding of `bin(n)[2:]` including Python's special case `bin(0) = "0b0"`. -/
def binStr (n : Nat) : List Bool :=
  if n = 0 then [false] else binDigits n

/-- Embedding of `constructBooleanTree`: left-pad the binary string of `n` with
`False` up to length `m` (no padding happens when the binary string is already
longer than `m`; the source raises no error in that case). -/
def constructBooleanTree (n m : Nat) : List Bool :=
  List.replicate (m - (binStr n).length) false ++ binStr n

/-- Embedding of the inner helper `incBT` of `incrementBooleanTree`; taking the
head of the empty list raises `IndexError` in the source, modelled as `none`. -/
def incBT : List Bool → Option (List Bool)
| [] => none
| b :: m => if b = false then some (true :: m) else (incBT m).map (fun r => false :: r)

/-- Embedding of `incrementBooleanTree`: copy, reverse, increment with
ripple-carry starting from the (now leading) least significant bit, reverse
back. -/
def incrementBooleanTree (n : List Bool) : Option (List Bool) :=
  (incBT n.reverse).map List.reverse

/-- Embedding of the helper `h_distance` of `stepRight` (Hamming distance of
the zipped prefixes). -/
def h_distance (val1 val2 : List Bool) : Nat :=
  ((val1.zip val2).map (fun p => if p.1 = p.2 then 0 else 1)).sum

/-- Specification-side view of a key: its `w` low bits, least significant
first. -/
def lsbBits (k w : Nat) : List Bool :=
  (List.range w).map (fun j => k.testBit j)

/-- Specification-side view of a key: its `w` low bits, most significant
first (the logical order of `constructBooleanTree`). -/
def msbBits (k w : Nat) : List Bool :=
  (lsbBits k w).reverse

/-- Length of the trailing run of `true` entries, scanning from the head (used
on reversed paths). -/
def leadTrues : List Bool → Nat
| [] => 0
| b :: m => if b then leadTrues m + 1 else 0

/-! ### WalkSynthesizer: `applyAndWalk` / `qrom` -/

/-- Embedding of the control-sense computation `(key >> bi) % 2 == 1`. -/
def ctlSense (key bi : Nat) : Bool :=
  decide ((key >>> bi) % 2 = 1)

/-- The wire controlling ancilla bit `i - 1`: ancilla bit `i`, or the global
select wire at the top of the chain (`i = width`). -/
def chainCtrl (width i : Nat) : Qubit :=
  if i = width then Qubit.sel else Qubit.anc i

/-- Gates of the build-up loop of `qrom` (the first-key branch when
`c = width`, the rebuild loop of a transition otherwise): ancilla bits
`c-1` down to `0` extended using `key`'s bits. -/
def setGates (key width c : Nat) : List Gate :=
  ((List.range c).reverse.map (fun j =>
    toffoli true (ctlSense key j) (chainCtrl width (j + 1)) (Qubit.addr j) (Qubit.anc j))).flatten

/-- Gates of the clearing loops of `qrom` (transition clearing for `c` below
the most significant differing bit, final clearing for `c = width`): ancilla
bits `0` up to `c-1` unwound using `key`'s bits. -/
def unsetGates (key width c : Nat) : List Gate :=
  ((List.range c).map (fun j =>
    toffoli true (ctlSense key j) (chainCtrl width (j + 1)) (Qubit.addr j) (Qubit.anc j))).flatten

/-- Embedding of the clearing-loop index scan of `qrom`: starting from `ci`,
find the first index whose strictly-higher bits agree between the two keys.
The fuel argument only bounds the loop; `width` steps always suffice for keys
below `2 ^ width`. -/
def clearC (prev key : Nat) : Nat → Nat → Nat
| ci, 0 => ci
| ci, fuel + 1 =>
  if prev >>> (ci + 1) = key >>> (ci + 1) then ci else clearC prev key (ci + 1) fuel

/-- Gates emitted by `qrom` to move from `prev` to `key`: unwind below the
most significant differing bit `c` using `prev`'s bits, flip ancilla `c` from
its chain predecessor, rebuild below `c` using `key`'s bits. -/
def transGates (width prev key : Nat) : List Gate :=
  unsetGates prev width (clearC prev key 0 width) ++
    [Gate.CX (chainCtrl width (clearC prev key 0 width + 1))
      (Qubit.anc (clearC prev key 0 width))] ++
    setGates key width (clearC prev key 0 width)

/-- The main loop of `qrom` over the key list, carrying `prev_key_val`
(`none` encodes the initial `-1`). -/
def qromLoop (width : Nat) : Option Nat → List Nat → List Gate
| _, [] => []
| none, k :: rest =>
  setGates k width width ++ [Gate.payload k (Qubit.anc 0)] ++ qromLoop width (some k) rest
| some p, k :: rest =>
  transGates width p k ++ [Gate.payload k (Qubit.anc 0)] ++ qromLoop width (some k) rest

/-- Embedding of `qrom`: the main loop followed by the final
ancilla-clearing loop over the last key processed. -/
def qromGates (width : Nat) (keys : List Nat) : List Gate :=
  qromLoop width none keys ++
    (match keys.getLast? with
     | none => []
     | some k => unsetGates k width width)

/-- Embedding of `applyAndWalk`: run `qrom` on the contiguous key list
`[pos1, pos2)`. -/
def applyAndWalk (width pos1 pos2 : Nat) : List Gate :=
  qromGates width ((List.range (pos2 - pos1)).map (fun ii => ii + pos1))

/-- `matchBits f key i n` holds when the address bits `f` agree with `key`'s
bits on positions `i, i+1, …, i+n-1`. -/
def matchBits (f : Nat → Bool) (key : Nat) : Nat → Nat → Bool
| _, 0 => true
| i, n + 1 => (f i == key.testBit i) && matchBits f key (i + 1) n

/-- The intended value of ancilla bit `i` of the prefix-match chain for `key`:
select AND all address bits of significance at least `i` match `key`. -/
def chain (f : Nat → Bool) (sel : Bool) (key width i : Nat) : Bool :=
  sel && matchBits f key i (width - i)

/-! ### TreeSynthesizer: `walkDown`, `stepRight`, `applyAndStep`, and the
inverse ascent -/

/-- Python negative indexing `l[-(n+1)]`, `none` when out of range. -/
def nthLast (l : List Qubit) (n : Nat) : Option Qubit :=
  l.reverse.get? n

/-- Embedding of the recursive helper of `walkDown`; out-of-range indexing
(`qbt[0]`, `anc[0]`, `anc[1]` on too-short lists) is modelled as `none`. -/
def walkDown_helper : List Bool → List Qubit → List Qubit → Option (List Gate)
| [], _, _ => some []
| b :: bt, qbt, anc => do
    let q0 ← qbt.head?
    let a0 ← anc.get? 0
    let a1 ← anc.get? 1
    let rest ← walkDown_helper bt qbt.tail anc.tail
    pure (toffoli b true q0 a0 a1 ++ rest)

/-- Embedding of `walkDown`: the root gate controlled on the first two path
entries, then the recursive descent over the remaining path. -/
def walkDown (bTree : List Bool) (qubits ancilla : List Qubit) : Option (List Gate) := do
  let b0 ← bTree.get? 0
  let b1 ← bTree.get? 1
  let q0 ← qubits.get? 0
  let q1 ← qubits.get? 1
  let a0 ← ancilla.get? 0
  let rest ← walkDown_helper (bTree.drop 2) (qubits.drop 2) ancilla
  pure (toffoli b0 b1 q0 q1 a0 ++ rest)

/-- Embedding of `stepRight` with an explicit recursion bound; the source
recurses on `bTree[0:-1]`, so `bTree.length` steps of fuel always suffice, and
the `none` at exhausted fuel is never reached on the inputs used here. -/
def stepRightF : Nat → List Bool → List Qubit → List Qubit → Option (List Gate)
| fuel, bTree, qubits, ancilla =>
  match incrementBooleanTree bTree with
  | none => none
  | some inc =>
    let distance := h_distance bTree inc
    let n_anc := ancilla.length
    if distance = 0 then some []
    else if distance = 1 then
      if n_anc = 1 then do
        let q0 ← nthLast ancilla 0
        pure [Gate.X q0]
      else do
        let q0 ← nthLast ancilla 0
        let q1 ← nthLast ancilla 1
        pure [Gate.CX q1 q0]
    else if distance = 2 then
      if n_anc = 2 then do
        let q0 ← nthLast ancilla 0
        let q1 ← nthLast ancilla 1
        let x0 ← nthLast qubits 0
        pure [Gate.CX q1 q0, Gate.CX x0 q0, Gate.X q1, Gate.X q0]
      else do
        let q0 ← nthLast ancilla 0
        let q1 ← nthLast ancilla 1
        let q2 ← nthLast ancilla 2
        let x0 ← nthLast qubits 0
        pure ([Gate.CX q1 q0] ++ toffoli true false q2 x0 q0 ++ [Gate.CX q2 q1])
    else
      match fuel with
      | 0 => none
      | fuel + 1 => do
        let x0 ← nthLast qubits 0
        let q0 ← nthLast ancilla 0
        let q1 ← nthLast ancilla 1
        let rest ← stepRightF fuel bTree.dropLast qubits.dropLast ancilla.dropLast
        pure (toffoli true true q1 x0 q0 ++ rest ++ toffoli true false q1 x0 q0)

/-- Embedding of `stepRight` (the circuit argument is returned as a gate list
rather than mutated). -/
def stepRight (bTree : List Bool) (qubits ancilla : List Qubit) : Option (List Gate) :=
  stepRightF bTree.length bTree qubits ancilla

/-- Embedding of the recursive helper of `applyAndStep` with an explicit
recursion bound (the loop advances `sbT` by increments until it reaches
`ebT`); `ops.length` steps of fuel suffice on the inputs used here.  The
payload operator `ops[0](anc[-1], tgt)` is modelled by a `payload` gate. -/
def applyAndStepF : Nat → List Nat → List Bool → List Bool → List Qubit → List Qubit →
    Option (List Gate)
| fuel, ops, sbT, ebT, qbs, anc =>
  if sbT = ebT then do
    let k ← ops.head?
    let a ← nthLast anc 0
    pure [Gate.payload k a]
  else
    match fuel with
    | 0 => none
    | fuel + 1 => do
      let k ← ops.head?
      let a ← nthLast anc 0
      let step ← stepRight sbT qbs anc
      let inc ← incrementBooleanTree sbT
      let rest ← applyAndStepF fuel ops.tail inc ebT qbs anc
      pure ([Gate.payload k a] ++ step ++ rest)

/-- Embedding of `applyAndStep`. -/
def applyAndStep (ops : List Nat) (start_bTree end_bTree : List Bool)
    (controls ancilla : List Qubit) : Option (List Gate) :=
  applyAndStepF ops.length ops start_bTree end_bTree controls ancilla

/-- Gate-level inverse as computed by `cirq.inverse` on the gates used here:
reverse the list and invert each gate (`S` and `S†` swap; the rest are
self-inverse). -/
def invGate : Gate → Gate
| .S q => Gate.Sinv q
| .Sinv q => Gate.S q
| g => g

/-- Inverse of a circuit: reversed list of inverted gates. -/
def invCircuit (gs : List Gate) : List Gate :=
  gs.reverse.map invGate

/-- The address wires handed to the synthesizers, `ctl_q`, most significant
first (`ctl_q[j]` is the address bit of significance `W-1-j`); the segment
from significance `off` up to `off+n-1`. -/
def ctlSeg (off n : Nat) : List Qubit :=
  (List.range n).reverse.map (fun j => Qubit.addr (off + j))

/-- The ancilla wires `anc_q`, most significant first; the segment from
significance `off` up to `off+n-1`. -/
def ancSeg (off n : Nat) : List Qubit :=
  (List.range n).reverse.map (fun j => Qubit.anc (off + j))

/-- Bits `off` to `off+n-1` of a key, most significant first (the tail of a
tree path). -/
def bitSeg (k off n : Nat) : List Bool :=
  (List.range n).reverse.map (fun j => k.testBit (off + j))

/-- Embedding of the tree-strategy branch of `SelVBase._decompose_`: descend
along the start path, step-and-apply across the active keys, then ascend by
the inverse of a descent along the end path.  The ancilla list passed to
`applyAndStep` is `[phase] + anc_q`, as in the source. -/
def treeCircuit (width pos1 pos2 : Nat) : Option (List Gate) := do
  let start_node := true :: constructBooleanTree pos1 width
  let end_node := true :: constructBooleanTree (pos2 - 1) width
  let down ← walkDown start_node (Qubit.sel :: ctlSeg 0 width) (ancSeg 0 width)
  let app ← applyAndStep ((List.range (pos2 - pos1)).map (fun ii => ii + pos1))
      start_node end_node (ctlSeg 0 width) (Qubit.sel :: ancSeg 0 width)
  let up ← walkDown end_node (Qubit.sel :: ctlSeg 0 width) (ancSeg 0 width)
  pure (down ++ app ++ invCircuit up)

/-- Well-formedness of a gate for inversion: controls distinct from targets,
and no payload (payload invocations are not self-inverse). -/
def gateOK : Gate → Prop
| .X _ => True
| .CX c t => c ≠ t
| .CCX c0 c1 t => t ≠ c0 ∧ t ≠ c1
| .Z _ => True
| .CZ _ _ => True
| .S _ => True
| .Sinv _ => True
| .payload _ _ => False

/-! ### `SelVBase.convert_hamiltonian_terms_to_operators` -/

/-- Pauli axis labels as they appear in a Hamiltonian term string. -/
inductive Pauli
| I
| X
| Y
| Z
deriving DecidableEq

/-- Embedding of the inner `controlled_pauli_gate`: walk the zip of the Pauli
string with the target wires, emitting nothing for `I`, a controlled flip for
`X`, a controlled phase for `Z`, and a controlled flip conjugated by `S⁻¹`/`S`
on the target for `Y`. -/
def controlled_pauli_gate : List Pauli → Qubit → List Qubit → List Gate
| [], _, _ => []
| _ :: _, _, [] => []
| p :: ps, ctrl, tq :: tqs =>
  (match p with
   | Pauli.I => []
   | Pauli.X => [Gate.CX ctrl tq]
   | Pauli.Y => [Gate.Sinv tq, Gate.CX ctrl tq, Gate.S tq]
   | Pauli.Z => [Gate.CZ ctrl tq]) ++ controlled_pauli_gate ps ctrl tqs

/-- Embedding of `convert_hamiltonian_terms_to_operators`: one generator per
term; a negative coefficient prepends an unconditional `Z` on the control. -/
def convert_hamiltonian_terms_to_operators (terms : List (List Pauli × ℚ)) :
    List (Qubit → List Qubit → List Gate) :=
  terms.map (fun term =>
    if term.2 < 0 then
      fun ctrl qubits => [Gate.Z ctrl] ++ controlled_pauli_gate term.1 ctrl qubits
    else
      fun ctrl qubits => controlled_pauli_gate term.1 ctrl qubits)

/-- Specification-side per-axis instruction table, as worded in the spec. -/
def axisGatesSpec (ctrl tq : Qubit) : Pauli → List Gate
| Pauli.I => []
| Pauli.X => [Gate.CX ctrl tq]
| Pauli.Y => [Gate.Sinv tq, Gate.CX ctrl tq, Gate.S tq]
| Pauli.Z => [Gate.CZ ctrl tq]

theorem execGates_append (a b : List Gate) (s : SimState) :
    execGates (a ++ b) s = execGates b (execGates a s) := by
  simp [execGates, List.foldl_append]

theorem execGates_cons (g : Gate) (gs : List Gate) (s : SimState) :
    execGates (g :: gs) s = execGates gs (execGate s g) := by
  simp [execGates]

theorem execGates_nil (s : SimState) : execGates [] s = s := rfl

theorem readQ_flipQ (q q2 : Qubit) (s : SimState) :
    readQ (flipQ q s) q2 = if q2 = q then ! readQ s q2 else readQ s q2 := by
  cases q <;> cases q2 <;>
    simp [readQ, flipQ] <;>
    split <;> simp_all

theorem flipQ_addr (q : Qubit) (s : SimState) (i : Nat) :
    (flipQ q s).addr i = if q = Qubit.addr i then ! s.addr i else s.addr i := by
  cases q with
  | addr k =>
    by_cases h : i = k
    · subst h; simp [flipQ]
    · simp [flipQ, h, Ne.symm h]
  | anc k => simp [flipQ]
  | sel => simp [flipQ]
  | tgt k => simp [flipQ]

theorem flipQ_anc (q : Qubit) (s : SimState) (i : Nat) :
    (flipQ q s).anc i = if q = Qubit.anc i then ! s.anc i else s.anc i := by
  cases q with
  | anc k =>
    by_cases h : i = k
    · subst h; simp [flipQ]
    · simp [flipQ, h, Ne.symm h]
  | addr k => simp [flipQ]
  | sel => simp [flipQ]
  | tgt k => simp [flipQ]

theorem flipQ_sel (q : Qubit) (s : SimState) :
    (flipQ q s).sel = if q = Qubit.sel then ! s.sel else s.sel := by
  cases q <;> simp [flipQ]

theorem flipQ_tgt (q : Qubit) (s : SimState) (i : Nat) :
    (flipQ q s).tgt i = if q = Qubit.tgt i then ! s.tgt i else s.tgt i := by
  cases q with
  | tgt k =>
    by_cases h : i = k
    · subst h; simp [flipQ]
    · simp [flipQ, h, Ne.symm h]
  | addr k => simp [flipQ]
  | anc k => simp [flipQ]
  | sel => simp [flipQ]

theorem flipQ_fired (q : Qubit) (s : SimState) :
    (flipQ q s).fired = s.fired := by
  cases q <;> simp [flipQ]

theorem flipQ_flipQ (q : Qubit) (s : SimState) :
    flipQ q (flipQ q s) = s := by
  cases s
  cases q <;>
    simp [flipQ] <;>
    funext j <;>
    split <;> simp_all

theorem flipQ_comm (q q2 : Qubit) (h : q ≠ q2) (s : SimState) :
    flipQ q (flipQ q2 s) = flipQ q2 (flipQ q s) := by
  cases s
  cases q <;> cases q2 <;>
    simp [flipQ] <;>
    (try rfl) <;>
    funext j <;>
    split <;> simp_all

/-- Net classical action of the polarity-adjusted Toffoli, provided the target
is distinct from both controls and the controls are distinct. -/
theorem toffoli_exec (b0 b1 : Bool) (c0 c1 t : Qubit) (s : SimState)
    (h0 : t ≠ c0) (h1 : t ≠ c1) (hc : c0 ≠ c1) :
    execGates (toffoli b0 b1 c0 c1 t) s =
      (if (readQ s c0 == b0) && (readQ s c1 == b1) then flipQ t s else s) := by
  have hc2 : c1 ≠ c0 := Ne.symm hc
  have h0b : c0 ≠ t := Ne.symm h0
  have h1b : c1 ≠ t := Ne.symm h1
  have e1 : ∀ u : SimState, flipQ c0 (flipQ t u) = flipQ t (flipQ c0 u) :=
    fun u => flipQ_comm c0 t h0b u
  have e2 : ∀ u : SimState, flipQ c1 (flipQ t u) = flipQ t (flipQ c1 u) :=
    fun u => flipQ_comm c1 t h1b u
  cases b0 <;> cases b1 <;>
    by_cases hr0 : readQ s c0 <;> by_cases hr1 : readQ s c1 <;>
      simp_all [toffoli, execGates, execGate, readQ_flipQ, flipQ_flipQ, hc, hc2, h0, h1]

theorem lsbBits_zero_key (w : Nat) : lsbBits 0 w = List.replicate w false := by
  induction w with
  | zero => rfl
  | succ w ih =>
    rw [lsbBits, List.range_succ, List.map_append, ← lsbBits, ih]
    simp [List.replicate_succ', Nat.zero_testBit]

theorem lsbBits_succ (k w : Nat) :
    lsbBits k (w + 1) = k.testBit 0 :: lsbBits (k / 2) w := by
  rw [lsbBits, List.range_succ_eq_map]
  simp only [List.map_cons, List.map_map]
  refine congrArg _ ?_
  apply List.map_congr_left
  intro j _
  exact Nat.testBit_succ k j

theorem msbBits_succ (k w : Nat) :
    msbBits k (w + 1) = msbBits (k / 2) w ++ [k.testBit 0] := by
  rw [msbBits, lsbBits_succ, List.reverse_cons, msbBits]

theorem binDigits_zero : binDigits 0 = [] := by
  rw [binDigits]
  simp

theorem binDigits_pos (n : Nat) (h : n ≠ 0) :
    binDigits n = binDigits (n / 2) ++ [decide (n % 2 = 1)] := by
  conv_lhs => rw [binDigits]
  simp [h]

theorem binDigits_length_gt (m : Nat) :
    ∀ n : Nat, 2 ^ m ≤ n → m < (binDigits n).length := by
  induction m with
  | zero =>
    intro n hn
    have h0 : n ≠ 0 := by omega
    rw [binDigits_pos n h0]
    simp
  | succ m ih =>
    intro n hn
    have h0 : n ≠ 0 := by
      have : 0 < 2 ^ (m + 1) := Nat.pos_pow_of_pos _ (by norm_num)
      omega
    have hdiv : 2 ^ m ≤ n / 2 := by
      rw [Nat.le_div_iff_mul_le (by norm_num)]
      calc 2 ^ m * 2 = 2 ^ (m + 1) := by ring
        _ ≤ n := hn
    rw [binDigits_pos n h0]
    simp only [List.length_append, List.length_cons, List.length_nil]
    have := ih (n / 2) hdiv
    omega

/-- Correctness of the digit extraction against the bit view, for positive
arguments in range. -/
theorem binDigits_pad (w : Nat) :
    ∀ n : Nat, 1 ≤ n → n < 2 ^ w →
      List.replicate (w - (binDigits n).length) false ++ binDigits n = msbBits n w := by
  induction w with
  | zero =>
    intro n h1 h2
    omega
  | succ w ih =>
    intro n h1 h2
    rw [binDigits_pos n (by omega)]
    by_cases hh : n / 2 = 0
    · have hn1 : n = 1 := by omega
      subst hn1
      rw [msbBits_succ]
      norm_num [binDigits_zero, msbBits, lsbBits_zero_key, List.reverse_replicate]
    · have hdiv1 : 1 ≤ n / 2 := Nat.pos_of_ne_zero hh
      have hdiv2 : n / 2 < 2 ^ w := by
        rw [Nat.div_lt_iff_lt_mul (by norm_num)]
        calc n < 2 ^ (w + 1) := h2
          _ = 2 ^ w * 2 := by ring
      calc List.replicate ((w + 1) - (binDigits (n / 2) ++ [decide (n % 2 = 1)]).length) false
            ++ (binDigits (n / 2) ++ [decide (n % 2 = 1)])
          = (List.replicate (w - (binDigits (n / 2)).length) false ++ binDigits (n / 2))
            ++ [decide (n % 2 = 1)] := by
            simp only [List.length_append, List.length_cons, List.length_nil, List.append_assoc]
            rw [show (w + 1) - ((binDigits (n / 2)).length + (0 + 1))
              = w - (binDigits (n / 2)).length by omega]
        _ = msbBits (n / 2) w ++ [decide (n % 2 = 1)] := by rw [ih (n / 2) hdiv1 hdiv2]
        _ = msbBits (n / 2) w ++ [n.testBit 0] := by rw [← Nat.testBit_zero]
        _ = msbBits n (w + 1) := (msbBits_succ n w).symm

/-- `constructBooleanTree` produces the MSB-first `m`-bit encoding whenever the
key is in range and the width is positive. -/
theorem constructBooleanTree_spec (n m : Nat) (h1 : 1 ≤ m) (h2 : n < 2 ^ m) :
    constructBooleanTree n m = msbBits n m := by
  by_cases h0 : n = 0
  · subst h0
    rw [constructBooleanTree, binStr]
    simp only [if_pos rfl]
    rw [msbBits, lsbBits_zero_key, List.reverse_replicate]
    rw [show m = (m - 1) + 1 by omega, List.replicate_succ' (m - 1) false]
    simp
  · rw [constructBooleanTree, binStr, if_neg h0]
    exact binDigits_pad m n (Nat.pos_of_ne_zero h0) h2

/-- Out-of-range keys produce the unpadded binary string, strictly longer than
the requested width (and no failure occurs). -/
theorem constructBooleanTree_overflow (n m : Nat) (h : 2 ^ m ≤ n) :
    constructBooleanTree n m = binStr n ∧ m < (constructBooleanTree n m).length := by
  have h0 : n ≠ 0 := by
    have : 0 < 2 ^ m := Nat.pos_pow_of_pos _ (by norm_num)
    omega
  have hb : binStr n = binDigits n := by rw [binStr, if_neg h0]
  have hlen : m < (binStr n).length := by
    rw [hb]; exact binDigits_length_gt m n h
  constructor
  · rw [constructBooleanTree, Nat.sub_eq_zero_of_le (Nat.le_of_lt hlen)]
    simp
  · rw [constructBooleanTree, Nat.sub_eq_zero_of_le (Nat.le_of_lt hlen)]
    simpa using hlen

theorem incBT_lsbBits (w : Nat) :
    ∀ k : Nat, k + 1 < 2 ^ w → incBT (lsbBits k w) = some (lsbBits (k + 1) w) := by
  induction w with
  | zero =>
    intro k hk
    simp at hk
  | succ w ih =>
    intro k hk
    rw [lsbBits_succ, lsbBits_succ]
    by_cases hb : k.testBit 0
    · have hodd : k % 2 = 1 := by
        have := Nat.testBit_zero k
        rw [hb] at this
        exact of_decide_eq_true this.symm
      have hs : (k + 1) / 2 = k / 2 + 1 := by omega
      have hs2 : (k + 1).testBit 0 = false := by
        rw [Nat.testBit_zero]
        simp
        omega
      have hrange : k / 2 + 1 < 2 ^ w := by
        have hlt : k + 1 < 2 ^ w * 2 := by
          calc k + 1 < 2 ^ (w + 1) := hk
            _ = 2 ^ w * 2 := by ring
        omega
      simp only [incBT]
      rw [if_neg (by simp [hb]), ih (k / 2) hrange]
      rw [hs, hs2]
      rfl
    · have hb2 : k.testBit 0 = false := by
        cases hbb : k.testBit 0
        · rfl
        · exact absurd hbb hb
      have heven : k % 2 = 0 := by
        rw [Nat.testBit_zero] at hb2
        simp at hb2
        omega
      have hs : (k + 1) / 2 = k / 2 := by omega
      have hs2 : (k + 1).testBit 0 = true := by
        rw [Nat.testBit_zero]
        simp
        omega
      simp only [incBT]
      rw [if_pos hb2, hs, hs2]

/-- Claim C5 roundtrip at the level of raw LSB-first lists, lifted to the
MSB-first encoding below. -/
theorem incrementBooleanTree_msbBits (k w : Nat) (hk : k + 1 < 2 ^ w) :
    incrementBooleanTree (msbBits k w) = some (msbBits (k + 1) w) := by
  rw [incrementBooleanTree, msbBits, List.reverse_reverse, incBT_lsbBits w k hk]
  rfl

theorem incBT_eq_none_iff (bs : List Bool) :
    incBT bs = none ↔ ∀ b ∈ bs, b = true := by
  induction bs with
  | nil => simp [incBT]
  | cons b m ih =>
    cases b with
    | false => simp [incBT]
    | true => simp [incBT, Option.map_eq_none', ih]

theorem incBT_length (bs : List Bool) :
    ∀ r : List Bool, incBT bs = some r → r.length = bs.length := by
  induction bs with
  | nil => intro r hr; simp [incBT] at hr
  | cons b m ih =>
    intro r hr
    cases b with
    | false =>
      simp [incBT] at hr
      rw [← hr]
      simp
    | true =>
      simp [incBT, Option.map_eq_some'] at hr
      obtain ⟨a, ha, har⟩ := hr
      rw [← har]
      simp [ih a ha]

/-- `incrementBooleanTree` hits the empty-head `IndexError` exactly on the
all-`True` (maximum) path. -/
theorem incrementBooleanTree_eq_none_iff (bs : List Bool) :
    incrementBooleanTree bs = none ↔ ∀ b ∈ bs, b = true := by
  rw [incrementBooleanTree, Option.map_eq_none', incBT_eq_none_iff]
  constructor
  · intro h b hb
    exact h b (List.mem_reverse.mpr hb)
  · intro h b hb
    exact h b (List.mem_reverse.mp hb)

theorem incrementBooleanTree_length (bs r : List Bool)
    (h : incrementBooleanTree bs = some r) : r.length = bs.length := by
  rw [incrementBooleanTree, Option.map_eq_some'] at h
  obtain ⟨a, ha, har⟩ := h
  have := incBT_length bs.reverse a ha
  rw [← har]
  simpa using this

theorem h_distance_self (bs : List Bool) : h_distance bs bs = 0 := by
  induction bs with
  | nil => rfl
  | cons b m ih => simp [h_distance] at ih ⊢; exact ih

theorem incBT_h_distance (bs : List Bool) :
    ∀ r : List Bool, incBT bs = some r → h_distance bs r = 1 + leadTrues bs := by
  induction bs with
  | nil => intro r hr; simp [incBT] at hr
  | cons b m ih =>
    intro r hr
    cases b with
    | false =>
      simp [incBT] at hr
      rw [← hr]
      simp [h_distance, leadTrues, h_distance_self m]
      have := h_distance_self m
      simp [h_distance] at this
      simp [this]
    | true =>
      simp [incBT, Option.map_eq_some'] at hr
      obtain ⟨a, ha, har⟩ := hr
      rw [← har]
      have := ih a ha
      simp [h_distance, leadTrues] at this ⊢
      omega

theorem h_distance_reverse :
    ∀ a b : List Bool, a.length = b.length →
      h_distance a.reverse b.reverse = h_distance a b
  | [], [], _ => rfl
  | [], _ :: _, h => by simp at h
  | _ :: _, [], h => by simp at h
  | x :: xs, y :: ys, h => by
    have hl : xs.length = ys.length := by simpa using h
    have hrl : xs.reverse.length = ys.reverse.length := by simpa using hl
    simp only [h_distance, List.reverse_cons]
    rw [List.zip_append hrl]
    simp only [List.map_append, List.sum_append, List.zip_cons_cons, List.map_cons,
      List.sum_cons, List.zip_nil_right, List.map_nil, List.sum_nil]
    have hrec := h_distance_reverse xs ys hl
    simp only [h_distance] at hrec
    rw [hrec]
    omega

/-- Whenever `incrementBooleanTree` succeeds, the Hamming distance between a
path and its increment is one more than the length of the trailing run of
`True` entries; in particular it is never `0`. -/
theorem incrementBooleanTree_h_distance (bs r : List Bool)
    (h : incrementBooleanTree bs = some r) :
    h_distance bs r = 1 + leadTrues bs.reverse := by
  rw [incrementBooleanTree, Option.map_eq_some'] at h
  obtain ⟨a, ha, har⟩ := h
  have hlen : a.length = bs.reverse.length := incBT_length bs.reverse a ha
  have hdist := incBT_h_distance bs.reverse a ha
  calc h_distance bs r = h_distance bs.reverse.reverse a.reverse := by
        rw [List.reverse_reverse, har]
    _ = h_distance bs.reverse a := h_distance_reverse bs.reverse a hlen.symm
    _ = 1 + leadTrues bs.reverse := hdist

theorem ctlSense_eq_testBit (key bi : Nat) : ctlSense key bi = key.testBit bi := by
  rw [ctlSense, Nat.testBit_to_div_mod, Nat.shiftRight_eq_div_pow]

theorem chain_width (f : Nat → Bool) (sel : Bool) (key width : Nat) :
    chain f sel key width width = sel := by
  simp [chain, Nat.sub_self, matchBits]

theorem chain_succ (f : Nat → Bool) (sel : Bool) (key width i : Nat) (h : i < width) :
    chain f sel key width i
      = (chain f sel key width (i + 1) && (f i == key.testBit i)) := by
  have hsub : width - i = (width - (i + 1)) + 1 := by omega
  rw [chain, chain, hsub, matchBits]
  cases sel <;> cases (f i == key.testBit i) <;>
    cases matchBits f key (i + 1) (width - (i + 1)) <;> rfl

theorem matchBits_congr (f : Nat → Bool) (k1 k2 : Nat) :
    ∀ n i, (∀ j, i ≤ j → j < i + n → k1.testBit j = k2.testBit j) →
      matchBits f k1 i n = matchBits f k2 i n := by
  intro n
  induction n with
  | zero => intro i _; rfl
  | succ n ih =>
    intro i hj
    rw [matchBits, matchBits, hj i (Nat.le_refl i) (by omega),
      ih (i + 1) (fun j h1 h2 => hj j (by omega) (by omega))]

theorem chain_congr (f : Nat → Bool) (sel : Bool) (k1 k2 width i : Nat)
    (h : ∀ j, i ≤ j → j < width → k1.testBit j = k2.testBit j) :
    chain f sel k1 width i = chain f sel k2 width i := by
  rw [chain, chain, matchBits_congr f k1 k2 (width - i) i (fun j h1 h2 => h j h1 (by omega))]

theorem readQ_chainCtrl (s : SimState) (width i : Nat) :
    readQ s (chainCtrl width i) = if i = width then s.sel else s.anc i := by
  rw [chainCtrl]
  split <;> rfl

theorem anc_ne_chainCtrl (width c i : Nat) (h : i ≠ c) :
    Qubit.anc c ≠ chainCtrl width i := by
  rw [chainCtrl]
  split
  · intro hco; exact Qubit.noConfusion hco
  · intro hco
    injection hco with h2
    exact h (h2.symm)

theorem chainCtrl_ne_addr (width i j : Nat) : chainCtrl width i ≠ Qubit.addr j := by
  rw [chainCtrl]
  split <;> intro hco <;> exact Qubit.noConfusion hco

theorem condFlip_anc_fields (b : Bool) (c : Nat) (s : SimState) :
    ((if b then flipQ (Qubit.anc c) s else s).addr = s.addr) ∧
    ((if b then flipQ (Qubit.anc c) s else s).sel = s.sel) ∧
    ((if b then flipQ (Qubit.anc c) s else s).tgt = s.tgt) ∧
    ((if b then flipQ (Qubit.anc c) s else s).fired = s.fired) ∧
    ((if b then flipQ (Qubit.anc c) s else s).anc c = xor b (s.anc c)) ∧
    (∀ j, j ≠ c → (if b then flipQ (Qubit.anc c) s else s).anc j = s.anc j) := by
  cases b
  · simp
  · refine ⟨rfl, rfl, rfl, rfl, ?_, ?_⟩
    · simp [flipQ]
    · intro j hj
      simp [flipQ, hj]

/-- Running the rebuild loop from a state whose ancilla bits below `c` are
cleared and whose bits from `c` up hold the prefix-match chain extends the
chain down to bit `0`. -/
theorem setGates_exec (width key : Nat) :
    ∀ c, c ≤ width → ∀ s : SimState,
      (∀ j, j < c → s.anc j = false) →
      (∀ i, c ≤ i → i < width → s.anc i = chain s.addr s.sel key width i) →
      ((execGates (setGates key width c) s).addr = s.addr ∧
       (execGates (setGates key width c) s).sel = s.sel ∧
       (execGates (setGates key width c) s).tgt = s.tgt ∧
       (execGates (setGates key width c) s).fired = s.fired ∧
       (∀ i, i < width → (execGates (setGates key width c) s).anc i
          = chain s.addr s.sel key width i) ∧
       (∀ i, width ≤ i → (execGates (setGates key width c) s).anc i = s.anc i)) := by
  intro c
  induction c with
  | zero =>
    intro _ s h1 h2
    have hnil : setGates key width 0 = [] := by simp [setGates]
    rw [hnil]
    exact ⟨rfl, rfl, rfl, rfl, fun i hi => h2 i (Nat.zero_le i) hi, fun i _ => rfl⟩
  | succ c ih =>
    intro hc s h1 h2
    have hdecomp : setGates key width (c + 1)
        = toffoli true (ctlSense key c) (chainCtrl width (c + 1)) (Qubit.addr c) (Qubit.anc c)
          ++ setGates key width c := by
      rw [setGates, setGates, List.range_succ]
      simp
    rw [hdecomp, execGates_append,
      toffoli_exec _ _ _ _ _ _ (anc_ne_chainCtrl width c (c + 1) (by omega))
        (fun hco => Qubit.noConfusion hco) (chainCtrl_ne_addr width (c + 1) c)]
    have hctrl : readQ s (chainCtrl width (c + 1)) = chain s.addr s.sel key width (c + 1) := by
      rw [readQ_chainCtrl]
      split
      · next hw => rw [hw, chain_width]
      · next hw => exact h2 (c + 1) (Nat.le_refl _) (by omega)
    have hcondeq : ((readQ s (chainCtrl width (c + 1)) == true)
          && (readQ s (Qubit.addr c) == ctlSense key c))
        = chain s.addr s.sel key width c := by
      rw [hctrl, ctlSense_eq_testBit, chain_succ s.addr s.sel key width c (by omega)]
      simp [readQ]
    rw [hcondeq]
    obtain ⟨ea, es, et, ef, ec, eo⟩ :=
      condFlip_anc_fields (chain s.addr s.sel key width c) c s
    have hancc : (if chain s.addr s.sel key width c then flipQ (Qubit.anc c) s else s).anc c
        = chain s.addr s.sel key width c := by
      rw [ec, h1 c (by omega)]
      simp
    have h1E : ∀ j, j < c →
        (if chain s.addr s.sel key width c then flipQ (Qubit.anc c) s else s).anc j = false :=
      fun j hj => (eo j (by omega)).trans (h1 j (by omega))
    have h2E : ∀ i, c ≤ i → i < width →
        (if chain s.addr s.sel key width c then flipQ (Qubit.anc c) s else s).anc i
          = chain (if chain s.addr s.sel key width c then flipQ (Qubit.anc c) s else s).addr
              (if chain s.addr s.sel key width c then flipQ (Qubit.anc c) s else s).sel
              key width i := by
      intro i hci hiw
      rw [ea, es]
      rcases Nat.eq_or_lt_of_le hci with he | hlt
      · rw [← he]
        exact hancc
      · rw [eo i (by omega)]
        exact h2 i (by omega) hiw
    obtain ⟨ra, rs, rt, rf, rc, ro⟩ := ih (by omega) _ h1E h2E
    rw [ea] at ra
    rw [es] at rs
    rw [et] at rt
    rw [ef] at rf
    refine ⟨ra, rs, rt, rf, ?_, ?_⟩
    · intro i hi
      rw [rc i hi, ea, es]
    · intro i hi
      rw [ro i hi, eo i (by omega)]

/-- Running a clearing loop from a chain state clears the ancilla bits strictly
below `c` and leaves the rest untouched. -/
theorem unsetGates_exec (width key : Nat) :
    ∀ c, c ≤ width → ∀ s : SimState,
      (∀ i, i < width → i ≤ c → s.anc i = chain s.addr s.sel key width i) →
      ((execGates (unsetGates key width c) s).addr = s.addr ∧
       (execGates (unsetGates key width c) s).sel = s.sel ∧
       (execGates (unsetGates key width c) s).tgt = s.tgt ∧
       (execGates (unsetGates key width c) s).fired = s.fired ∧
       (∀ j, j < c → (execGates (unsetGates key width c) s).anc j = false) ∧
       (∀ i, c ≤ i → (execGates (unsetGates key width c) s).anc i = s.anc i)) := by
  intro c
  induction c with
  | zero =>
    intro _ s h
    have hnil : unsetGates key width 0 = [] := by simp [unsetGates]
    rw [hnil]
    exact ⟨rfl, rfl, rfl, rfl, fun j hj => absurd hj (by omega), fun i _ => rfl⟩
  | succ c ih =>
    intro hc s h
    have hdecomp : unsetGates key width (c + 1)
        = unsetGates key width c ++
          toffoli true (ctlSense key c) (chainCtrl width (c + 1)) (Qubit.addr c)
            (Qubit.anc c) := by
      rw [unsetGates, unsetGates, List.range_succ]
      simp
    rw [hdecomp, execGates_append]
    obtain ⟨ra, rs, rt, rf, rc, ro⟩ :=
      ih (by omega) s (fun i hi hic => h i hi (by omega))
    rw [toffoli_exec _ _ _ _ _ _ (anc_ne_chainCtrl width c (c + 1) (by omega))
      (fun hco => Qubit.noConfusion hco) (chainCtrl_ne_addr width (c + 1) c)]
    have hctrl : readQ (execGates (unsetGates key width c) s) (chainCtrl width (c + 1))
        = chain s.addr s.sel key width (c + 1) := by
      rw [readQ_chainCtrl]
      split
      · next hw => rw [rs, hw, chain_width]
      · next hw =>
        rw [ro (c + 1) (by omega)]
        exact h (c + 1) (by omega) (Nat.le_refl _)
    have haddrc : readQ (execGates (unsetGates key width c) s) (Qubit.addr c) = s.addr c := by
      have : readQ (execGates (unsetGates key width c) s) (Qubit.addr c)
          = (execGates (unsetGates key width c) s).addr c := rfl
      rw [this, ra]
    have hcondeq : ((readQ (execGates (unsetGates key width c) s) (chainCtrl width (c + 1)) == true)
          && (readQ (execGates (unsetGates key width c) s) (Qubit.addr c) == ctlSense key c))
        = chain s.addr s.sel key width c := by
      rw [hctrl, haddrc, ctlSense_eq_testBit, chain_succ s.addr s.sel key width c (by omega)]
      simp
    rw [hcondeq]
    obtain ⟨ea, es, et, ef, ec, eo⟩ :=
      condFlip_anc_fields (chain s.addr s.sel key width c) c
        (execGates (unsetGates key width c) s)
    refine ⟨ea.trans ra, es.trans rs, et.trans rt, ef.trans rf, ?_, ?_⟩
    · intro j hj
      rcases Nat.lt_or_ge j c with hjc | hjc
      · rw [eo j (by omega)]
        exact rc j hjc
      · have hjc2 : j = c := by omega
        subst hjc2
        rw [ec, ro j (by omega), h j (by omega) (by omega)]
        simp
    · intro i hi
      rw [eo i (by omega)]
      exact ro i (by omega)

theorem clearC_find (prev key : Nat) :
    ∀ fuel ci, prev >>> ci ≠ key >>> ci → prev >>> (ci + fuel) = key >>> (ci + fuel) →
      (ci ≤ clearC prev key ci fuel ∧
       prev >>> clearC prev key ci fuel ≠ key >>> clearC prev key ci fuel ∧
       prev >>> (clearC prev key ci fuel + 1) = key >>> (clearC prev key ci fuel + 1)) := by
  intro fuel
  induction fuel with
  | zero =>
    intro ci hne heq
    exact absurd heq hne
  | succ fuel ih =>
    intro ci hne heq
    by_cases hsp : prev >>> (ci + 1) = key >>> (ci + 1)
    · simp only [clearC, if_pos hsp]
      exact ⟨Nat.le_refl _, hne, hsp⟩
    · simp only [clearC, if_neg hsp]
      have hstep := ih (ci + 1) hsp
        (by rw [show ci + 1 + fuel = ci + (fuel + 1) by omega]; exact heq)
      exact ⟨by omega, hstep.2.1, hstep.2.2⟩

/-- The index found by the clearing loop of `qrom` is the most significant bit
at which the two keys differ. -/
theorem msbDiff_spec (width prev key : Nat) (hp : prev < 2 ^ width) (hk : key < 2 ^ width)
    (hne : prev ≠ key) :
    clearC prev key 0 width < width ∧
    prev.testBit (clearC prev key 0 width) = ! key.testBit (clearC prev key 0 width) ∧
    (∀ j, clearC prev key 0 width < j → prev.testBit j = key.testBit j) := by
  have h0 : prev >>> 0 ≠ key >>> 0 := by
    simpa [Nat.shiftRight_zero] using hne
  have hW : prev >>> (0 + width) = key >>> (0 + width) := by
    rw [Nat.zero_add, Nat.shiftRight_eq_div_pow, Nat.shiftRight_eq_div_pow,
      Nat.div_eq_of_lt hp, Nat.div_eq_of_lt hk]
  obtain ⟨-, h2, h3⟩ := clearC_find prev key width 0 h0 hW
  have hcw : clearC prev key 0 width < width := by
    by_contra hcw
    push_neg at hcw
    have hz1 : prev >>> clearC prev key 0 width = 0 := by
      rw [Nat.shiftRight_eq_div_pow]
      exact Nat.div_eq_of_lt (Nat.lt_of_lt_of_le hp (Nat.pow_le_pow_right (by norm_num) hcw))
    have hz2 : key >>> clearC prev key 0 width = 0 := by
      rw [Nat.shiftRight_eq_div_pow]
      exact Nat.div_eq_of_lt (Nat.lt_of_lt_of_le hk (Nat.pow_le_pow_right (by norm_num) hcw))
    exact h2 (hz1.trans hz2.symm)
  refine ⟨hcw, ?_, ?_⟩
  · have hdiv : (prev >>> clearC prev key 0 width) / 2
        = (key >>> clearC prev key 0 width) / 2 := by
      rw [← Nat.shiftRight_succ, ← Nat.shiftRight_succ]
      exact h3
    have hdp := Nat.div_add_mod (prev >>> clearC prev key 0 width) 2
    have hdk := Nat.div_add_mod (key >>> clearC prev key 0 width) 2
    have hmp : (prev >>> clearC prev key 0 width) % 2 < 2 := Nat.mod_lt _ (by norm_num)
    have hmk : (key >>> clearC prev key 0 width) % 2 < 2 := Nat.mod_lt _ (by norm_num)
    have hnem : (prev >>> clearC prev key 0 width) % 2
        ≠ (key >>> clearC prev key 0 width) % 2 := by
      intro hcontra
      exact h2 (by omega)
    have hbp : prev.testBit (clearC prev key 0 width)
        = decide ((prev >>> clearC prev key 0 width) % 2 = 1) := by
      rw [Nat.testBit_to_div_mod, Nat.shiftRight_eq_div_pow]
    have hbk : key.testBit (clearC prev key 0 width)
        = decide ((key >>> clearC prev key 0 width) % 2 = 1) := by
      rw [Nat.testBit_to_div_mod, Nat.shiftRight_eq_div_pow]
    rcases (by omega :
        (prev >>> clearC prev key 0 width) % 2 = 1 ∧ (key >>> clearC prev key 0 width) % 2 = 0
        ∨ (prev >>> clearC prev key 0 width) % 2 = 0
          ∧ (key >>> clearC prev key 0 width) % 2 = 1) with
      ⟨ha, hb⟩ | ⟨ha, hb⟩ <;> rw [hbp, hbk, ha, hb] <;> simp
  · intro j hj
    have hjd : j = (clearC prev key 0 width + 1) + (j - clearC prev key 0 width - 1) := by
      omega
    rw [hjd, ← Nat.testBit_shiftRight, ← Nat.testBit_shiftRight, h3]

/-- Running the transition gates of `qrom` from the chain state for `prev`
yields the chain state for `key`. -/
theorem transGates_exec (width prev key : Nat) (hp : prev < 2 ^ width) (hk : key < 2 ^ width)
    (hne : prev ≠ key) (s : SimState)
    (hinv : ∀ i, i < width → s.anc i = chain s.addr s.sel prev width i) :
    ((execGates (transGates width prev key) s).addr = s.addr ∧
     (execGates (transGates width prev key) s).sel = s.sel ∧
     (execGates (transGates width prev key) s).tgt = s.tgt ∧
     (execGates (transGates width prev key) s).fired = s.fired ∧
     (∀ i, i < width → (execGates (transGates width prev key) s).anc i
        = chain s.addr s.sel key width i) ∧
     (∀ i, width ≤ i → (execGates (transGates width prev key) s).anc i = s.anc i)) := by
  obtain ⟨hcw, hbit, hhigh⟩ := msbDiff_spec width prev key hp hk hne
  have hchainhigh : ∀ i, clearC prev key 0 width < i →
      chain s.addr s.sel prev width i = chain s.addr s.sel key width i :=
    fun i hi => chain_congr s.addr s.sel prev key width i
      (fun j hj _ => hhigh j (by omega))
  rw [transGates, execGates_append, execGates_append]
  obtain ⟨ua, us, ut, uf, uc, uo⟩ :=
    unsetGates_exec width prev (clearC prev key 0 width) (by omega) s
      (fun i hi _ => hinv i hi)
  have hexec1 : execGates [Gate.CX (chainCtrl width (clearC prev key 0 width + 1))
      (Qubit.anc (clearC prev key 0 width))] (execGates (unsetGates prev width
        (clearC prev key 0 width)) s)
      = (if readQ (execGates (unsetGates prev width (clearC prev key 0 width)) s)
            (chainCtrl width (clearC prev key 0 width + 1))
         then flipQ (Qubit.anc (clearC prev key 0 width))
            (execGates (unsetGates prev width (clearC prev key 0 width)) s)
         else execGates (unsetGates prev width (clearC prev key 0 width)) s) := rfl
  rw [hexec1]
  have hctrl : readQ (execGates (unsetGates prev width (clearC prev key 0 width)) s)
      (chainCtrl width (clearC prev key 0 width + 1))
      = chain s.addr s.sel prev width (clearC prev key 0 width + 1) := by
    rw [readQ_chainCtrl]
    split
    · next hw => rw [us, hw, chain_width]
    · next hw =>
      rw [uo (clearC prev key 0 width + 1) (by omega)]
      exact hinv (clearC prev key 0 width + 1) (by omega)
  rw [hctrl]
  obtain ⟨ea, es, et, ef, ec, eo⟩ :=
    condFlip_anc_fields (chain s.addr s.sel prev width (clearC prev key 0 width + 1))
      (clearC prev key 0 width)
      (execGates (unsetGates prev width (clearC prev key 0 width)) s)
  have hancc : (if chain s.addr s.sel prev width (clearC prev key 0 width + 1)
        then flipQ (Qubit.anc (clearC prev key 0 width))
          (execGates (unsetGates prev width (clearC prev key 0 width)) s)
        else execGates (unsetGates prev width (clearC prev key 0 width)) s).anc
          (clearC prev key 0 width)
      = chain s.addr s.sel key width (clearC prev key 0 width) := by
    rw [ec, uo (clearC prev key 0 width) (Nat.le_refl _),
      hinv (clearC prev key 0 width) (by omega),
      chain_succ s.addr s.sel prev width (clearC prev key 0 width) hcw,
      chain_succ s.addr s.sel key width (clearC prev key 0 width) hcw,
      ← hchainhigh (clearC prev key 0 width + 1) (by omega)]
    have hkb : key.testBit (clearC prev key 0 width)
        = ! prev.testBit (clearC prev key 0 width) := by
      rw [hbit, Bool.not_not]
    rw [hkb]
    cases chain s.addr s.sel prev width (clearC prev key 0 width + 1) <;>
      cases s.addr (clearC prev key 0 width) <;>
      cases prev.testBit (clearC prev key 0 width) <;> rfl
  obtain ⟨sa, ss, st, sf, sc, so⟩ :=
    setGates_exec width key (clearC prev key 0 width) (by omega) _
      (fun j hj => by
        rw [eo j (by omega)]
        exact uc j hj)
      (fun i hci hiw => by
        rw [ea, es, us, ua]
        rcases Nat.eq_or_lt_of_le hci with he | hlt
        · rw [← he]
          exact hancc
        · rw [eo i (by omega), uo i (by omega), hinv i hiw]
          exact hchainhigh i (by omega))
  rw [ea, ua] at sa
  rw [es, us] at ss
  rw [et, ut] at st
  rw [ef, uf] at sf
  refine ⟨sa, ss, st, sf, ?_, ?_⟩
  · intro i hi
    rw [sc i hi, ea, es, ua, us]
  · intro i hi
    rw [so i (by omega), eo i (by omega), uo i (by omega)]

theorem condPayload_fields (b : Bool) (k : Nat) (s : SimState) :
    ((if b then { s with fired := s.fired ++ [k] } else s).addr = s.addr) ∧
    ((if b then { s with fired := s.fired ++ [k] } else s).sel = s.sel) ∧
    ((if b then { s with fired := s.fired ++ [k] } else s).tgt = s.tgt) ∧
    (∀ i, (if b then { s with fired := s.fired ++ [k] } else s).anc i = s.anc i) ∧
    ((if b then { s with fired := s.fired ++ [k] } else s).fired
      = s.fired ++ (if b then [k] else [])) := by
  cases b <;> simp

theorem getLast?_cons_getLastD (k : Nat) (rest : List Nat) :
    (k :: rest).getLast? = some (rest.getLastD k) := by
  induction rest generalizing k with
  | nil => rfl
  | cons a l ih => rw [List.getLast?_cons_cons, List.getLastD_cons, ih a]

/-- The main loop of `qrom`, entered with the chain state of the previous key,
visits each key in turn, maintains the chain invariant, and fires exactly the
payloads whose activation condition holds. -/
theorem qromLoop_exec (width : Nat) (hw : 1 ≤ width) :
    ∀ keys : List Nat, ∀ p : Nat, ∀ s : SimState,
      p < 2 ^ width →
      List.Chain (· < ·) p keys →
      (∀ k ∈ keys, k < 2 ^ width) →
      (∀ i, i < width → s.anc i = chain s.addr s.sel p width i) →
      ((execGates (qromLoop width (some p) keys) s).addr = s.addr ∧
       (execGates (qromLoop width (some p) keys) s).sel = s.sel ∧
       (execGates (qromLoop width (some p) keys) s).tgt = s.tgt ∧
       (∀ i, i < width → (execGates (qromLoop width (some p) keys) s).anc i
          = chain s.addr s.sel (keys.getLastD p) width i) ∧
       (∀ i, width ≤ i → (execGates (qromLoop width (some p) keys) s).anc i = s.anc i) ∧
       (execGates (qromLoop width (some p) keys) s).fired
          = s.fired ++ keys.filter (fun k => chain s.addr s.sel k width 0)) := by
  intro keys
  induction keys with
  | nil =>
    intro p s hp hch hb hinv
    exact ⟨rfl, rfl, rfl, fun i hi => hinv i hi, fun i _ => rfl, by simp [qromLoop, execGates]⟩
  | cons k rest ih =>
    intro p s hp hch hb hinv
    have hpk : p < k := (List.chain_cons.mp hch).1
    have hchrest : List.Chain (· < ·) k rest := (List.chain_cons.mp hch).2
    have hk : k < 2 ^ width := hb k (by simp)
    have hloop : qromLoop width (some p) (k :: rest)
        = transGates width p k ++ ([Gate.payload k (Qubit.anc 0)] ++ qromLoop width (some k) rest) := by
      simp [qromLoop]
    rw [hloop, execGates_append, execGates_append]
    obtain ⟨ta, ts, tt, tf, tc, to2⟩ :=
      transGates_exec width p k hp hk (by omega) s hinv
    have hpay : execGates [Gate.payload k (Qubit.anc 0)] (execGates (transGates width p k) s)
        = (if (execGates (transGates width p k) s).anc 0
           then { execGates (transGates width p k) s with
                    fired := (execGates (transGates width p k) s).fired ++ [k] }
           else execGates (transGates width p k) s) := rfl
    rw [hpay]
    obtain ⟨pa, ps, pt, pc, pf⟩ :=
      condPayload_fields ((execGates (transGates width p k) s).anc 0) k
        (execGates (transGates width p k) s)
    have hanc0 : (execGates (transGates width p k) s).anc 0
        = chain s.addr s.sel k width 0 := tc 0 (by omega)
    obtain ⟨ra, rs, rt, rc, ro, rf⟩ :=
      ih k _ hk hchrest (fun k2 hk2 => hb k2 (by simp [hk2]))
        (fun i hi => by
          rw [pc i, pa, ps, ta, ts]
          exact tc i hi)
    refine ⟨?_, ?_, ?_, ?_, ?_, ?_⟩
    · rw [ra, pa, ta]
    · rw [rs, ps, ts]
    · rw [rt, pt, tt]
    · intro i hi
      rw [rc i hi, pa, ps, ta, ts, List.getLastD_cons]
    · intro i hi
      rw [ro i hi, pc i, to2 i hi]
    · rw [rf, pf, pa, ps, ta, ts, tf, hanc0, List.filter_cons]
      by_cases hfire : chain s.addr s.sel k width 0
      · rw [if_pos hfire, if_pos hfire]
        simp
      · rw [if_neg (by simpa using hfire),
          if_neg (by simpa using hfire)]
        simp

/-- Master theorem for `qrom`: from a state with all ancilla bits cleared,
the produced circuit restores every ancilla bit to `0`, leaves address,
select and target bits unchanged, and fires exactly the payloads of the keys
whose activation condition (select AND full address match) holds, in order. -/
theorem qromGates_exec (width : Nat) (hw : 1 ≤ width) (keys : List Nat) (s : SimState)
    (hchain : List.Chain' (· < ·) keys) (hbound : ∀ k ∈ keys, k < 2 ^ width)
    (hanc : ∀ i, s.anc i = false) :
    ((execGates (qromGates width keys) s).addr = s.addr ∧
     (execGates (qromGates width keys) s).sel = s.sel ∧
     (execGates (qromGates width keys) s).tgt = s.tgt ∧
     (∀ i, (execGates (qromGates width keys) s).anc i = false) ∧
     (execGates (qromGates width keys) s).fired
        = s.fired ++ keys.filter (fun k => chain s.addr s.sel k width 0)) := by
  cases keys with
  | nil =>
    have hnil : qromGates width [] = [] := rfl
    rw [hnil]
    exact ⟨rfl, rfl, rfl, hanc, by simp [execGates]⟩
  | cons k rest =>
    have hk : k < 2 ^ width := hbound k (by simp)
    have hgl : qromGates width (k :: rest)
        = (setGates k width width ++ ([Gate.payload k (Qubit.anc 0)]
            ++ qromLoop width (some k) rest))
          ++ unsetGates (rest.getLastD k) width width := by
      rw [qromGates, getLast?_cons_getLastD]
      simp [qromLoop]
    rw [hgl, execGates_append, execGates_append, execGates_append]
    obtain ⟨ba, bs, bt, bf, bc, bo⟩ :=
      setGates_exec width k width (Nat.le_refl _) s (fun j hj => hanc j)
        (fun i h1 h2 => absurd h2 (by omega))
    have hpay : execGates [Gate.payload k (Qubit.anc 0)] (execGates (setGates k width width) s)
        = (if (execGates (setGates k width width) s).anc 0
           then { execGates (setGates k width width) s with
                    fired := (execGates (setGates k width width) s).fired ++ [k] }
           else execGates (setGates k width width) s) := rfl
    rw [hpay]
    obtain ⟨pa, ps, pt, pc, pf⟩ :=
      condPayload_fields ((execGates (setGates k width width) s).anc 0) k
        (execGates (setGates k width width) s)
    have hanc0 : (execGates (setGates k width width) s).anc 0
        = chain s.addr s.sel k width 0 := bc 0 (by omega)
    obtain ⟨ra, rs, rt, rc, ro, rf⟩ :=
      qromLoop_exec width hw rest k _ hk hchain (fun k2 hk2 => hbound k2 (by simp [hk2]))
        (fun i hi => by
          rw [pc i, pa, ps, ba, bs]
          exact bc i hi)
    obtain ⟨ua, us, ut, uf, uc, uo⟩ :=
      unsetGates_exec width (rest.getLastD k) width (Nat.le_refl _) _
        (fun i hi _ => by
          rw [rc i hi, ra, rs, pa, ps, ba, bs])
    refine ⟨?_, ?_, ?_, ?_, ?_⟩
    · rw [ua, ra, pa, ba]
    · rw [us, rs, ps, bs]
    · rw [ut, rt, pt, bt]
    · intro i
      rcases Nat.lt_or_ge i width with hi | hi
      · exact uc i hi
      · rw [uo i (by omega), ro i hi, pc i, bo i hi, hanc i]
    · rw [uf, rf, pf, pa, ps, ba, bs, bf, hanc0, List.filter_cons]
      by_cases hfire : chain s.addr s.sel k width 0
      · rw [if_pos hfire, if_pos hfire]
        simp
      · rw [if_neg (by simpa using hfire),
          if_neg (by simpa using hfire)]
        simp

theorem matchBits_true_iff (f : Nat → Bool) (k : Nat) :
    ∀ n i, (matchBits f k i n = true ↔ ∀ j, i ≤ j → j < i + n → f j = k.testBit j) := by
  intro n
  induction n with
  | zero =>
    intro i
    rw [matchBits]
    constructor
    · intro _ j h1 h2
      exact absurd h2 (by omega)
    · intro _
      rfl
  | succ n ih =>
    intro i
    rw [matchBits, Bool.and_eq_true, beq_iff_eq, ih (i + 1)]
    constructor
    · rintro ⟨h1, h2⟩ j hj1 hj2
      rcases Nat.eq_or_lt_of_le hj1 with he | hlt
      · rw [← he]
        exact h1
      · exact h2 j (by omega) (by omega)
    · intro h
      exact ⟨h i (Nat.le_refl _) (by omega), fun j h1 h2 => h j (by omega) (by omega)⟩

/-- The activation condition of a payload is select AND full address match. -/
theorem chain_addr_match (a k width : Nat) (sel : Bool) (ha : a < 2 ^ width)
    (hk : k < 2 ^ width) :
    chain (fun j => a.testBit j) sel k width 0 = (sel && decide (a = k)) := by
  rw [chain, Nat.sub_zero]
  congr 1
  cases hmb : matchBits (fun j => a.testBit j) k 0 width
  · have hne : ¬ (a = k) := by
      intro he
      subst he
      have hT : matchBits (fun j => a.testBit j) a 0 width = true :=
        (matchBits_true_iff _ a width 0).mpr (fun j _ _ => rfl)
      rw [hmb] at hT
      exact Bool.noConfusion hT
    simp [hne]
  · have hbits := (matchBits_true_iff _ k width 0).mp hmb
    have heq : a = k := by
      apply Nat.eq_of_testBit_eq
      intro j
      rcases Nat.lt_or_ge j width with hj | hj
      · exact hbits j (by omega) (by omega)
      · rw [Nat.testBit_lt_two_pow
            (Nat.lt_of_lt_of_le ha (Nat.pow_le_pow_right (by norm_num) hj)),
          Nat.testBit_lt_two_pow
            (Nat.lt_of_lt_of_le hk (Nat.pow_le_pow_right (by norm_num) hj))]
    simp [heq]

theorem filter_decide_eq (a : Nat) :
    ∀ l : List Nat, l.Nodup →
      l.filter (fun k => decide (a = k)) = if a ∈ l then [a] else [] := by
  intro l
  induction l with
  | nil => intro _; simp
  | cons b m ih =>
    intro hnd
    by_cases hab : a = b
    · subst hab
      have ham : a ∉ m := (List.nodup_cons.mp hnd).1
      simp [List.filter_cons, ih (List.nodup_cons.mp hnd).2, ham]
    · rw [List.filter_cons, if_neg (by simp [hab]), ih (List.nodup_cons.mp hnd).2]
      have hiff : (a ∈ b :: m) ↔ (a ∈ m) := by simp [hab]
      rw [if_congr hiff rfl rfl]

theorem chain_lt_range_map (n a : Nat) :
    List.Chain' (· < ·) ((List.range n).map (fun ii => ii + a)) := by
  rw [List.chain'_map]
  cases n with
  | zero => simp
  | succ n =>
    rw [List.chain'_range_succ]
    intro m hm
    omega

theorem mem_keyRange (k pos1 pos2 : Nat) :
    (k ∈ (List.range (pos2 - pos1)).map (fun ii => ii + pos1)) ↔ (pos1 ≤ k ∧ k < pos2) := by
  simp only [List.mem_map, List.mem_range]
  constructor
  · rintro ⟨ii, h1, h2⟩
    omega
  · intro h
    exact ⟨k - pos1, by omega, by omega⟩

/-- C1: for every active key list `[pos1, pos2)`, every address value not in
that list, and every value of the enable bit (and likewise for every address
when the enable bit is 0), the instruction sequence produced by
`applyAndWalk`/`qrom`, run on a register whose ancilla bits all start at 0,
leaves every ancilla bit at 0 and fires no payload operator. -/
theorem claim1_ancilla_closure (width pos1 pos2 a : Nat) (e : Bool) (s : SimState)
    (hw : 1 ≤ width) (hp2 : pos2 ≤ 2 ^ width) (ha : a < 2 ^ width)
    (haddr : s.addr = fun j => a.testBit j) (hsel : s.sel = e)
    (hanc : ∀ i, s.anc i = false) (hfired : s.fired = [])
    (hmiss : ¬ (pos1 ≤ a ∧ a < pos2) ∨ e = false) :
    (∀ i, (execGates (applyAndWalk width pos1 pos2) s).anc i = false) ∧
    (execGates (applyAndWalk width pos1 pos2) s).fired = [] := by
  rw [applyAndWalk]
  obtain ⟨_, _, _, hanc2, hfired2⟩ :=
    qromGates_exec width hw ((List.range (pos2 - pos1)).map (fun ii => ii + pos1)) s
      (chain_lt_range_map _ _) (fun k hk => by rw [mem_keyRange] at hk; omega) hanc
  refine ⟨hanc2, ?_⟩
  rw [hfired2, hfired, List.nil_append, List.filter_eq_nil_iff]
  intro k hk
  rw [mem_keyRange] at hk
  rw [haddr, hsel, chain_addr_match a k width e ha (by omega)]
  rcases hmiss with hm | hm
  · have hne : a ≠ k := by omega
    simp [hne]
  · rw [hm]
    simp

theorem claim1_witness :
    (1 ≤ 2 ∧ 3 ≤ 2 ^ 2 ∧ 0 < 2 ^ 2) ∧
    ((∀ i, (execGates (applyAndWalk 2 1 3)
        ⟨fun j => Nat.testBit 0 j, true, fun _ => false, fun _ => false, []⟩).anc i = false) ∧
     (execGates (applyAndWalk 2 1 3)
        ⟨fun j => Nat.testBit 0 j, true, fun _ => false, fun _ => false, []⟩).fired = []) :=
  ⟨⟨by norm_num, by norm_num, by norm_num⟩,
    claim1_ancilla_closure 2 1 3 0 true
      ⟨fun j => Nat.testBit 0 j, true, fun _ => false, fun _ => false, []⟩
      (by norm_num) (by norm_num) (by norm_num) rfl rfl (fun _ => rfl) rfl
      (Or.inl (by omega))⟩

/-- C2: for every active key list `[pos1, pos2)`, every address value in that
list, and enable bit 1, the instruction sequence produced by
`applyAndWalk`/`qrom` fires exactly one payload operator — the one whose key
equals the address — and returns every ancilla bit to 0. -/
theorem claim2_exact_match (width pos1 pos2 a : Nat) (s : SimState)
    (hw : 1 ≤ width) (hp2 : pos2 ≤ 2 ^ width)
    (haddr : s.addr = fun j => a.testBit j) (hsel : s.sel = true)
    (hanc : ∀ i, s.anc i = false) (hfired : s.fired = [])
    (hhit : pos1 ≤ a ∧ a < pos2) :
    (execGates (applyAndWalk width pos1 pos2) s).fired = [a] ∧
    (∀ i, (execGates (applyAndWalk width pos1 pos2) s).anc i = false) := by
  rw [applyAndWalk]
  have ha : a < 2 ^ width := by omega
  obtain ⟨_, _, _, hanc2, hfired2⟩ :=
    qromGates_exec width hw ((List.range (pos2 - pos1)).map (fun ii => ii + pos1)) s
      (chain_lt_range_map _ _) (fun k hk => by rw [mem_keyRange] at hk; omega) hanc
  refine ⟨?_, hanc2⟩
  rw [hfired2, hfired, List.nil_append]
  have hcongr : List.filter (fun k => chain s.addr s.sel k width 0)
        ((List.range (pos2 - pos1)).map (fun ii => ii + pos1))
      = List.filter (fun k => decide (a = k))
        ((List.range (pos2 - pos1)).map (fun ii => ii + pos1)) :=
    List.filter_congr (fun k hk => by
      rw [mem_keyRange] at hk
      rw [haddr, hsel, chain_addr_match a k width true ha (by omega), Bool.true_and])
  rw [hcongr]
  rw [filter_decide_eq a _
    (List.chain'_iff_pairwise.mp (chain_lt_range_map (pos2 - pos1) pos1)).nodup]
  rw [if_pos ((mem_keyRange a pos1 pos2).mpr hhit)]

theorem claim2_witness :
    (1 ≤ 2 ∧ 4 ≤ 2 ^ 2) ∧
    ((execGates (applyAndWalk 2 0 4)
        ⟨fun j => Nat.testBit 2 j, true, fun _ => false, fun _ => false, []⟩).fired = [2] ∧
     (∀ i, (execGates (applyAndWalk 2 0 4)
        ⟨fun j => Nat.testBit 2 j, true, fun _ => false, fun _ => false, []⟩).anc i = false)) :=
  ⟨⟨by norm_num, by norm_num⟩,
    claim2_exact_match 2 0 4 2
      ⟨fun j => Nat.testBit 2 j, true, fun _ => false, fun _ => false, []⟩
      (by norm_num) (by norm_num) rfl rfl (fun _ => rfl) rfl ⟨by omega, by omega⟩⟩

/-- C4: for consecutive keys `prev < key` below `2 ^ width`, the clearing loop
of `qrom` stops exactly at the most significant differing bit `c` (the bit
differs at `c` and agrees everywhere above `c`), and the emitted transition
unwinds ancilla bits below `c` with `prev`'s bit senses, flips ancilla `c`
with one `CX` from ancilla `c+1` (the select wire when `c+1 = width`), and
rebuilds the lower bits with `key`'s bit senses. -/
theorem claim4_transition_structure (width prev key : Nat) (hpk : prev < key)
    (hk : key < 2 ^ width) :
    prev.testBit (clearC prev key 0 width) ≠ key.testBit (clearC prev key 0 width) ∧
    (∀ j, clearC prev key 0 width < j → prev.testBit j = key.testBit j) ∧
    clearC prev key 0 width < width ∧
    transGates width prev key
      = unsetGates prev width (clearC prev key 0 width)
        ++ [Gate.CX (chainCtrl width (clearC prev key 0 width + 1))
             (Qubit.anc (clearC prev key 0 width))]
        ++ setGates key width (clearC prev key 0 width) := by
  obtain ⟨h1, h2, h3⟩ := msbDiff_spec width prev key (by omega) hk (by omega)
  refine ⟨?_, h3, h1, rfl⟩
  rw [h2]
  exact Bool.not_ne_self _

theorem claim4_witness :
    (1 < 2 ∧ 2 < 2 ^ 3) ∧
    (Nat.testBit 1 (clearC 1 2 0 3) ≠ Nat.testBit 2 (clearC 1 2 0 3) ∧
     (∀ j, clearC 1 2 0 3 < j → Nat.testBit 1 j = Nat.testBit 2 j) ∧
     clearC 1 2 0 3 < 3 ∧
     transGates 3 1 2
       = unsetGates 1 3 (clearC 1 2 0 3)
         ++ [Gate.CX (chainCtrl 3 (clearC 1 2 0 3 + 1)) (Qubit.anc (clearC 1 2 0 3))]
         ++ setGates 2 3 (clearC 1 2 0 3)) :=
  ⟨⟨by norm_num, by norm_num⟩, claim4_transition_structure 3 1 2 (by norm_num) (by norm_num)⟩

/-- C8: an empty active key range (`pos1 = pos2`) makes `applyAndWalk` emit no
instructions at all. -/
theorem claim8_empty_range (width pos : Nat) : applyAndWalk width pos pos = [] := by
  rw [applyAndWalk, Nat.sub_self]
  rfl

/-- C5: incrementing the `W`-bit MSB-first encoding of `k` yields the encoding
of `k + 1`, for every `k` with `k + 1 < 2 ^ W`. -/
theorem claim5_roundtrip (k w : Nat) (hk : k + 1 < 2 ^ w) :
    incrementBooleanTree (constructBooleanTree k w)
      = some (constructBooleanTree (k + 1) w) := by
  have hw : 1 ≤ w := by
    rcases Nat.eq_zero_or_pos w with h0 | h0
    · rw [h0] at hk
      norm_num at hk
    · exact h0
  rw [constructBooleanTree_spec k w hw (by omega),
    constructBooleanTree_spec (k + 1) w hw (by omega)]
  exact incrementBooleanTree_msbBits k w hk

theorem claim5_witness :
    2 + 1 < 2 ^ 2 ∧
    incrementBooleanTree (constructBooleanTree 2 2) = some (constructBooleanTree 3 2) :=
  ⟨by norm_num, claim5_roundtrip 2 2 (by norm_num)⟩

/-- C6 (amended): for positive width and `key < 2 ^ width`,
`constructBooleanTree` returns the MSB-first zero-padded `width`-bit encoding;
for `key ≥ 2 ^ width` it does not fail but returns the unpadded binary string,
whose length exceeds `width`. -/
theorem claim6_encode_amended (key width : Nat) :
    (1 ≤ width → key < 2 ^ width → constructBooleanTree key width = msbBits key width) ∧
    (2 ^ width ≤ key → constructBooleanTree key width = binStr key
      ∧ width < (constructBooleanTree key width).length) :=
  ⟨fun h1 h2 => constructBooleanTree_spec key width h1 h2,
   fun h => constructBooleanTree_overflow key width h⟩

theorem claim6_witness :
    constructBooleanTree 1 2 = msbBits 1 2 ∧
    constructBooleanTree 5 2 = binStr 5 ∧ 2 < (constructBooleanTree 5 2).length :=
  ⟨(claim6_encode_amended 1 2).1 (by norm_num) (by norm_num),
   ((claim6_encode_amended 5 2).2 (by norm_num)).1,
   ((claim6_encode_amended 5 2).2 (by norm_num)).2⟩

/-- C6 counterexample: on the out-of-range key 5 with width 2 the source does
not raise `ValueError`; it returns the 3-element list `[True, False, True]`
(the unpadded binary digits of 5), refuting the claimed failure. -/
theorem claim6_counterexample :
    constructBooleanTree 5 2 = [true, false, true]
      ∧ (constructBooleanTree 5 2).length = 3 := by
  have h5 : binDigits 5 = [true, false, true] := by
    rw [binDigits]
    norm_num
    rw [binDigits]
    norm_num
    rw [binDigits]
    norm_num
    rw [binDigits]
    norm_num
  constructor
  · rw [constructBooleanTree, binStr, if_neg (by norm_num), h5]
    norm_num
  · rw [constructBooleanTree, binStr, if_neg (by norm_num), h5]
    norm_num

/-- C9: `incrementBooleanTree` raises (the head of an empty list) exactly on
the all-`True` input, and on every other input returns a list of the same
length. -/
theorem claim9_increment_error (bs : List Bool) :
    (incrementBooleanTree bs = none ↔ ∀ b ∈ bs, b = true) ∧
    (∀ r, incrementBooleanTree bs = some r → r.length = bs.length) :=
  ⟨incrementBooleanTree_eq_none_iff bs, fun r h => incrementBooleanTree_length bs r h⟩

theorem claim9_witness :
    incrementBooleanTree [true, false] = some [true, true] ∧
    ([true, true] : List Bool).length = ([true, false] : List Bool).length :=
  ⟨rfl, (claim9_increment_error [true, false]).2 [true, true] rfl⟩

/-- C10: whenever `incrementBooleanTree` is defined (the path has a `False`
bit), the Hamming distance between the path and its increment is one plus the
trailing run of `True` bits, hence at least 1: the `distance == 0` branch of
`stepRight` is unreachable. -/
theorem claim10_distance_positive (bs r : List Bool)
    (h : incrementBooleanTree bs = some r) :
    h_distance bs r = 1 + leadTrues bs.reverse ∧ 1 ≤ h_distance bs r := by
  have hd := incrementBooleanTree_h_distance bs r h
  exact ⟨hd, by omega⟩

theorem claim10_witness :
    incrementBooleanTree [true, false, true] = some [true, true, false] ∧
    h_distance [true, false, true] [true, true, false]
        = 1 + leadTrues ([true, false, true] : List Bool).reverse ∧
    1 ≤ h_distance [true, false, true] [true, true, false] :=
  ⟨rfl, claim10_distance_positive [true, false, true] [true, true, false] rfl⟩

theorem revRange_map_succ {α : Type} (f : Nat → α) (n : Nat) :
    (List.range (n + 1)).reverse.map f = f n :: (List.range n).reverse.map f := by
  rw [List.range_succ, List.reverse_append]
  rfl

theorem revRange_map_dropLast {α : Type} (f : Nat → α) (n : Nat) :
    ((List.range (n + 1)).reverse.map f).dropLast
      = (List.range n).reverse.map (fun j => f (j + 1)) := by
  rw [List.range_succ_eq_map, List.reverse_cons, List.map_append]
  simp only [List.map_cons, List.map_nil]
  rw [List.dropLast_concat, List.map_reverse, List.map_map, List.map_reverse]
  rfl

theorem cons_revRange_map_dropLast {α : Type} (x : α) (f : Nat → α) (n : Nat) :
    (x :: (List.range (n + 1)).reverse.map f).dropLast
      = x :: (List.range n).reverse.map (fun j => f (j + 1)) := by
  rw [List.range_succ_eq_map, List.reverse_cons, List.map_append]
  simp only [List.map_cons, List.map_nil]
  rw [show (x :: (List.map f (List.map Nat.succ (List.range n)).reverse ++ [f 0]))
      = (x :: List.map f (List.map Nat.succ (List.range n)).reverse) ++ [f 0] from rfl]
  rw [List.dropLast_concat, List.map_reverse, List.map_map, List.map_reverse]
  rfl

theorem revRange_map_reverse {α : Type} (f : Nat → α) (n : Nat) :
    ((List.range n).reverse.map f).reverse = (List.range n).map f := by
  rw [← List.map_reverse, List.reverse_reverse]

theorem ctlSeg_succ (off n : Nat) :
    ctlSeg off (n + 1) = Qubit.addr (off + n) :: ctlSeg off n :=
  revRange_map_succ _ n

theorem ancSeg_succ (off n : Nat) :
    ancSeg off (n + 1) = Qubit.anc (off + n) :: ancSeg off n :=
  revRange_map_succ _ n

theorem bitSeg_succ (k off n : Nat) :
    bitSeg k off (n + 1) = k.testBit (off + n) :: bitSeg k off n :=
  revRange_map_succ _ n

theorem ctlSeg_dropLast (off n : Nat) :
    (ctlSeg off (n + 1)).dropLast = ctlSeg (off + 1) n := by
  rw [ctlSeg, revRange_map_dropLast, ctlSeg]
  apply List.map_congr_left
  intro j _
  congr 1
  omega

theorem ancSeg_dropLast (off n : Nat) :
    (ancSeg off (n + 1)).dropLast = ancSeg (off + 1) n := by
  rw [ancSeg, revRange_map_dropLast, ancSeg]
  apply List.map_congr_left
  intro j _
  congr 1
  omega

theorem bitSeg_dropLast (k off n : Nat) :
    (bitSeg k off (n + 1)).dropLast = bitSeg k (off + 1) n := by
  rw [bitSeg, revRange_map_dropLast, bitSeg]
  apply List.map_congr_left
  intro j _
  congr 1
  omega

theorem selAnc_dropLast (off n : Nat) :
    (Qubit.sel :: ancSeg off (n + 1)).dropLast = Qubit.sel :: ancSeg (off + 1) n := by
  rw [ancSeg, cons_revRange_map_dropLast, ancSeg]
  refine congrArg _ ?_
  apply List.map_congr_left
  intro j _
  congr 1
  omega

theorem pathDrop_dropLast (b : Bool) (k off n : Nat) :
    ((b :: bitSeg k off (n + 1)).dropLast) = b :: bitSeg k (off + 1) n := by
  rw [bitSeg, cons_revRange_map_dropLast, bitSeg]
  refine congrArg _ ?_
  apply List.map_congr_left
  intro j _
  congr 1
  omega

theorem ancSeg_length (off n : Nat) : (ancSeg off n).length = n := by
  simp [ancSeg]

theorem ctlSeg_length (off n : Nat) : (ctlSeg off n).length = n := by
  simp [ctlSeg]

theorem bitSeg_length (k off n : Nat) : (bitSeg k off n).length = n := by
  simp [bitSeg]

theorem nthLast_selAnc (off n j : Nat) (hj : j ≤ n) :
    nthLast (Qubit.sel :: ancSeg off n) j = some (chainCtrl (off + n) (off + j)) := by
  rw [nthLast, List.reverse_cons, ancSeg, revRange_map_reverse]
  rcases Nat.lt_or_ge j n with h | h
  · rw [List.get?_append (by simpa using h), List.get?_map, List.get?_range h]
    rw [chainCtrl, if_neg (by omega)]
    rfl
  · have hjn : j = n := by omega
    subst hjn
    rw [List.get?_append_right (by simp)]
    simp
    rw [chainCtrl, if_pos rfl]

theorem nthLast_ctlSeg0 (off n : Nat) (hn : 1 ≤ n) :
    nthLast (ctlSeg off n) 0 = some (Qubit.addr off) := by
  rw [nthLast, ctlSeg, revRange_map_reverse, List.get?_map, List.get?_range (by omega)]
  simp

theorem bitSeg_eq_reverse_lsb (k off n : Nat) :
    bitSeg k off n = (lsbBits (k >>> off) n).reverse := by
  rw [bitSeg, lsbBits, List.map_reverse]
  refine congrArg List.reverse ?_
  apply List.map_congr_left
  intro j _
  rw [Nat.testBit_shiftRight]

theorem bitSeg_zero_eq_msb (k n : Nat) : bitSeg k 0 n = msbBits k n := by
  rw [bitSeg_eq_reverse_lsb, Nat.shiftRight_zero, msbBits]

theorem incBT_append_some :
    ∀ xs r ys : List Bool, incBT xs = some r → incBT (xs ++ ys) = some (r ++ ys) := by
  intro xs
  induction xs with
  | nil =>
    intro r ys h
    simp [incBT] at h
  | cons b m ih =>
    intro r ys h
    cases b with
    | false =>
      simp [incBT] at h ⊢
      rw [← h]
      rfl
    | true =>
      simp [incBT, Option.map_eq_some'] at h
      obtain ⟨a, ha, har⟩ := h
      simp [incBT, Option.map_eq_some']
      exact ⟨a ++ ys, ih a ys ha, by rw [← har]; rfl⟩

theorem shiftRight_add_pow (k off : Nat) :
    (k + 2 ^ off) >>> off = (k >>> off) + 1 := by
  rw [Nat.shiftRight_eq_div_pow, Nat.shiftRight_eq_div_pow]
  exact Nat.add_div_right k (Nat.pos_pow_of_pos off (by norm_num))

/-- Incrementing a tree path advances the encoded key by `2 ^ off`, as long as
the represented bit window is not all ones. -/
theorem increment_path (k off n : Nat) (h : (k >>> off) + 1 < 2 ^ n) :
    incrementBooleanTree (true :: bitSeg k off n)
      = some (true :: bitSeg (k + 2 ^ off) off n) := by
  rw [incrementBooleanTree, List.reverse_cons, bitSeg_eq_reverse_lsb, List.reverse_reverse]
  rw [incBT_append_some (lsbBits (k >>> off) n) (lsbBits (k >>> off + 1) n) [true]
    (incBT_lsbBits n (k >>> off) h)]
  have hrw : (lsbBits (k >>> off + 1) n).reverse = bitSeg (k + 2 ^ off) off n := by
    rw [bitSeg_eq_reverse_lsb, shiftRight_add_pow]
  simp [List.reverse_append, hrw]

theorem leadTrues_append (xs ys : List Bool) (h : ∃ b ∈ xs, b = false) :
    leadTrues (xs ++ ys) = leadTrues xs := by
  induction xs with
  | nil => simp at h
  | cons b m ih =>
    cases b with
    | false => simp [leadTrues]
    | true =>
      have h2 : ∃ b ∈ m, b = false := by
        obtain ⟨b2, hb2, hbf⟩ := h
        rcases List.mem_cons.mp hb2 with he | hm
        · rw [hbf] at he
          exact absurd he.symm (by simp)
        · exact ⟨b2, hm, hbf⟩
      simp [leadTrues, ih h2]

theorem lsb_hasFalse (m n : Nat) (h : m + 1 < 2 ^ n) :
    ∃ b ∈ lsbBits m n, b = false := by
  by_contra hc
  push_neg at hc
  have hall : ∀ j, j < n → m.testBit j = true := by
    intro j hj
    have hmem : m.testBit j ∈ lsbBits m n := by
      rw [lsbBits]
      exact List.mem_map.mpr ⟨j, List.mem_range.mpr hj, rfl⟩
    have hne := hc _ hmem
    cases hb : m.testBit j
    · exact absurd hb hne
    · rfl
  have hm : m = 2 ^ n - 1 := by
    apply Nat.eq_of_testBit_eq
    intro j
    rcases Nat.lt_or_ge j n with hj | hj
    · rw [hall j hj, Nat.testBit_two_pow_sub_one]
      simp [hj]
    · rw [Nat.testBit_lt_two_pow
          (Nat.lt_of_lt_of_le (by omega) (Nat.pow_le_pow_right (by norm_num) hj)),
        Nat.testBit_two_pow_sub_one]
      simp
      omega
  omega

theorem readQ_chainCtrl_inv (s : SimState) (W i key : Nat) (hiW : i ≤ W)
    (hinv : i < W → s.anc i = chain s.addr s.sel key W i) :
    readQ s (chainCtrl W i) = chain s.addr s.sel key W i := by
  rw [readQ_chainCtrl]
  split
  · next hw =>
    rw [hw, chain_width]
  · next hw =>
    exact hinv (by omega)

theorem testBit_add_pow_self (k off : Nat) :
    (k + 2 ^ off).testBit off = ! k.testBit off := by
  have h1 : (k + 2 ^ off) >>> off = (k >>> off) + 1 := shiftRight_add_pow k off
  have h2 : (k + 2 ^ off).testBit off = decide (((k + 2 ^ off) >>> off) % 2 = 1) := by
    rw [Nat.testBit_to_div_mod, Nat.shiftRight_eq_div_pow]
  have h3 : k.testBit off = decide ((k >>> off) % 2 = 1) := by
    rw [Nat.testBit_to_div_mod, Nat.shiftRight_eq_div_pow]
  rw [h2, h3, h1]
  rcases Nat.mod_two_eq_zero_or_one (k >>> off) with h | h
  · have hodd : (k >>> off + 1) % 2 = 1 := by omega
    simp [h, hodd]
  · have heven : (k >>> off + 1) % 2 = 0 := by omega
    simp [h, heven]

theorem shiftRight_succ_add_pow (k off : Nat) :
    (k + 2 ^ off) >>> (off + 1)
      = (k >>> (off + 1)) + (if k.testBit off then 1 else 0) := by
  have h1 : (k + 2 ^ off) >>> (off + 1) = ((k + 2 ^ off) >>> off) / 2 :=
    Nat.shiftRight_succ _ _
  have h2 : k >>> (off + 1) = (k >>> off) / 2 := Nat.shiftRight_succ _ _
  have h3 := shiftRight_add_pow k off
  have h4 : k.testBit off = decide ((k >>> off) % 2 = 1) := by
    rw [Nat.testBit_to_div_mod, Nat.shiftRight_eq_div_pow]
  rw [h1, h2, h3, h4]
  rcases Nat.mod_two_eq_zero_or_one (k >>> off) with h | h
  · simp only [h]
    norm_num
    omega
  · simp only [h]
    norm_num
    omega

theorem testBit_of_shiftRight_eq (x y i : Nat) (h : x >>> i = y >>> i) :
    ∀ j, i ≤ j → x.testBit j = y.testBit j := by
  intro j hj
  have hx : x.testBit j = (x >>> i).testBit (j - i) := by
    rw [Nat.testBit_shiftRight]
    congr 1
    omega
  have hy : y.testBit j = (y >>> i).testBit (j - i) := by
    rw [Nat.testBit_shiftRight]
    congr 1
    omega
  rw [hx, hy, h]

/-- No carry into the high bits when the flipped bit was clear. -/
theorem testBit_add_pow_high_false (k off : Nat) (h : k.testBit off = false) :
    ∀ j, off < j → (k + 2 ^ off).testBit j = k.testBit j := by
  intro j hj
  apply testBit_of_shiftRight_eq _ _ (off + 1) _ j (by omega)
  rw [shiftRight_succ_add_pow, h]
  simp

/-- A set bit plus its own power carries exactly one step up. -/
theorem testBit_add_pow_high_true (k off : Nat) (h : k.testBit off = true) :
    ∀ j, off < j → (k + 2 ^ off).testBit j = (k + 2 ^ (off + 1)).testBit j := by
  intro j hj
  apply testBit_of_shiftRight_eq _ _ (off + 1) _ j (by omega)
  rw [shiftRight_succ_add_pow, h, shiftRight_add_pow]
  simp

theorem bool_xor_absorb (a b : Bool) : xor (a && b) a = (a && !b) := by
  cases a <;> cases b <;> rfl

theorem beq_not_right (x b : Bool) : (x == !b) = !(x == b) := by
  cases x <;> cases b <;> rfl

theorem leadTrues_unfold (m n : Nat) (hn : 1 ≤ n) :
    leadTrues (lsbBits m n)
      = if m.testBit 0 then leadTrues (lsbBits (m / 2) (n - 1)) + 1 else 0 := by
  obtain ⟨n2, rfl⟩ : ∃ n2, n = n2 + 1 := ⟨n - 1, by omega⟩
  rw [lsbBits_succ]
  simp [leadTrues]

theorem path_distance (k off n : Nat) (h : (k >>> off) + 1 < 2 ^ n) :
    h_distance (true :: bitSeg k off n) (true :: bitSeg (k + 2 ^ off) off n)
      = 1 + leadTrues (lsbBits (k >>> off) n) := by
  have hinc := increment_path k off n h
  have hd := incrementBooleanTree_h_distance _ _ hinc
  rw [hd, List.reverse_cons, bitSeg_eq_reverse_lsb, List.reverse_reverse,
    leadTrues_append _ _ (lsb_hasFalse _ _ h)]

theorem nthLast_selAnc0 (off n : Nat) (hn : 1 ≤ n) :
    nthLast (Qubit.sel :: ancSeg off n) 0 = some (Qubit.anc off) := by
  rw [nthLast_selAnc off n 0 (by omega), Nat.add_zero, chainCtrl, if_neg (by omega)]

theorem selAnc_length (off n : Nat) : (Qubit.sel :: ancSeg off n).length = n + 1 := by
  simp [ancSeg_length]

theorem testBit_shiftRight_zero (k off : Nat) :
    (k >>> off).testBit 0 = k.testBit off := by
  rw [Nat.testBit_shiftRight, Nat.add_zero]

theorem testBit_shiftRight_one (k off : Nat) :
    (k >>> off).testBit 1 = k.testBit (off + 1) := by
  rw [Nat.testBit_shiftRight]

theorem shiftRight_div_two (k off : Nat) : (k >>> off) / 2 = k >>> (off + 1) :=
  (Nat.shiftRight_succ k off).symm

/-- Evaluation of a single `stepRight` under the chain invariant: starting in
the chain state of `k`, the emitted gates move the ancilla register to the
chain state of `k + 2 ^ off` and touch nothing else.  The parameters describe
the sublists handed to the recursive call: bits and wires of significance at
least `off`, with `off + n` the full register width. -/
theorem stepRightF_exec :
    ∀ fuel n off k : Nat, ∀ s : SimState, n ≤ fuel → 1 ≤ n →
      (k >>> off) + 1 < 2 ^ n →
      (∀ i, off ≤ i → i < off + n → s.anc i = chain s.addr s.sel k (off + n) i) →
      ∃ g, stepRightF fuel (true :: bitSeg k off n) (ctlSeg off n) (Qubit.sel :: ancSeg off n)
          = some g ∧
        ((execGates g s).addr = s.addr ∧
         (execGates g s).sel = s.sel ∧
         (execGates g s).tgt = s.tgt ∧
         (execGates g s).fired = s.fired ∧
         (∀ i, off ≤ i → i < off + n → (execGates g s).anc i
            = chain s.addr s.sel (k + 2 ^ off) (off + n) i) ∧
         (∀ i, i < off ∨ off + n ≤ i → (execGates g s).anc i = s.anc i)) := by
  intro fuel
  induction fuel with
  | zero =>
    intro n off k s hnf hn1 _ _
    exact absurd (Nat.le_trans hn1 hnf) (by norm_num)
  | succ fuel ih =>
    intro n off k s hnf hn1 hlt hinv
    have hinc := increment_path k off n hlt
    have hdist := path_distance k off n hlt
    have hm0 := testBit_shiftRight_zero k off
    by_cases hb0 : k.testBit off = true
    · -- the lowest bit of the window is set: distance 2 or more
      have hmodd : (k >>> off) % 2 = 1 := by
        have h0 := testBit_shiftRight_zero k off
        rw [hb0, Nat.testBit_zero] at h0
        exact of_decide_eq_true h0
      have hn2 : 2 ≤ n := by
        by_contra hc
        push_neg at hc
        have hn1e : n = 1 := by omega
        rw [hn1e, pow_one] at hlt
        generalize hgen : k >>> off = m at hlt hmodd
        omega
      have hk2b0 : (k + 2 ^ off).testBit off = false := by
        rw [testBit_add_pow_self, hb0]
        rfl
      have hk2hi : ∀ j, off < j →
          (k + 2 ^ off).testBit j = (k + 2 ^ (off + 1)).testBit j :=
        testBit_add_pow_high_true k off hb0
      by_cases hb1 : k.testBit (off + 1) = true
      · -- distance at least 3: clear the low bit, recurse, rebuild the low bit
        obtain ⟨n2, rfl⟩ : ∃ n2, n = n2 + 1 := ⟨n - 1, by omega⟩
        have hm2t : ((k >>> off) / 2).testBit 0 = true := by
          rw [← Nat.testBit_succ, testBit_shiftRight_one]
          exact hb1
        have htin : 1 ≤ leadTrues (lsbBits ((k >>> off) / 2) n2) := by
          rw [leadTrues_unfold _ _ (by omega), hm2t]
          simp
        have ht : 2 ≤ leadTrues (lsbBits (k >>> off) (n2 + 1)) := by
          rw [leadTrues_unfold _ _ hn1, hm0, hb0, if_pos rfl, Nat.add_sub_cancel]
          omega
        have hsum : off + 1 + n2 = off + (n2 + 1) := by omega
        have hlt2 : (k >>> (off + 1)) + 1 < 2 ^ n2 := by
          have hdiv : k >>> (off + 1) = (k >>> off) / 2 := (shiftRight_div_two k off).symm
          have hpow : (2 : Nat) ^ (n2 + 1) = 2 ^ n2 * 2 := pow_succ 2 n2
          rw [hpow] at hlt
          rw [hdiv]
          generalize hgen : k >>> off = m at hlt hmodd ⊢
          omega
        -- execute the clearing gate
        have hctrl1 : readQ s (chainCtrl (off + (n2 + 1)) (off + 1))
            = chain s.addr s.sel k (off + (n2 + 1)) (off + 1) :=
          readQ_chainCtrl_inv s _ _ k (by omega)
            (fun h => hinv (off + 1) (by omega) h)
        have hg1 : execGates
            (toffoli true true (chainCtrl (off + (n2 + 1)) (off + 1)) (Qubit.addr off)
              (Qubit.anc off)) s
            = (if (readQ s (chainCtrl (off + (n2 + 1)) (off + 1)) == true)
                  && (readQ s (Qubit.addr off) == true)
               then flipQ (Qubit.anc off) s else s) :=
          toffoli_exec _ _ _ _ _ s
            (anc_ne_chainCtrl _ off (off + 1) (by omega))
            (fun hco => Qubit.noConfusion hco)
            (chainCtrl_ne_addr _ (off + 1) off)
        have hcond1 : ((readQ s (chainCtrl (off + (n2 + 1)) (off + 1)) == true)
              && (readQ s (Qubit.addr off) == true))
            = chain s.addr s.sel k (off + (n2 + 1)) off := by
          rw [hctrl1, chain_succ s.addr s.sel k (off + (n2 + 1)) off (by omega), hb0]
          rw [show readQ s (Qubit.addr off) = s.addr off from rfl]
          simp
        rw [hcond1] at hg1
        obtain ⟨e1a, e1s, e1t, e1f, e1c, e1o⟩ :=
          condFlip_anc_fields (chain s.addr s.sel k (off + (n2 + 1)) off) off s
        have hzero : (if chain s.addr s.sel k (off + (n2 + 1)) off
              then flipQ (Qubit.anc off) s else s).anc off = false := by
          rw [e1c, hinv off (by omega) (by omega)]
          exact Bool.xor_self _
        -- recursion
        obtain ⟨grec, hgrec, r_a, r_s, r_t, r_f, r_c, r_o⟩ :=
          ih n2 (off + 1) k
            (if chain s.addr s.sel k (off + (n2 + 1)) off then flipQ (Qubit.anc off) s else s)
            (by omega) (by omega) hlt2
            (fun i h1 h2 => by
              rw [e1a, e1s, e1o i (by omega), hsum]
              exact hinv i (by omega) (by omega))
        rw [hsum] at r_c r_o
        rw [e1a] at r_a
        rw [e1s] at r_s
        rw [e1t] at r_t
        rw [e1f] at r_f
        -- execute the rebuild gate on the state after the recursion
        have hctrl3 : readQ (execGates grec
              (if chain s.addr s.sel k (off + (n2 + 1)) off then flipQ (Qubit.anc off) s else s))
              (chainCtrl (off + (n2 + 1)) (off + 1))
            = chain s.addr s.sel (k + 2 ^ (off + 1)) (off + (n2 + 1)) (off + 1) := by
          have := readQ_chainCtrl_inv (execGates grec
              (if chain s.addr s.sel k (off + (n2 + 1)) off then flipQ (Qubit.anc off) s else s))
              (off + (n2 + 1)) (off + 1) (k + 2 ^ (off + 1)) (by omega)
              (fun h => by
                rw [r_c (off + 1) (by omega) (by omega), r_a, r_s, e1a, e1s])
          rw [this, r_a, r_s]
        have hg3 : execGates
            (toffoli true false (chainCtrl (off + (n2 + 1)) (off + 1)) (Qubit.addr off)
              (Qubit.anc off))
            (execGates grec
              (if chain s.addr s.sel k (off + (n2 + 1)) off then flipQ (Qubit.anc off) s else s))
            = (if (readQ (execGates grec
                  (if chain s.addr s.sel k (off + (n2 + 1)) off then flipQ (Qubit.anc off) s
                   else s)) (chainCtrl (off + (n2 + 1)) (off + 1)) == true)
                  && (readQ (execGates grec
                  (if chain s.addr s.sel k (off + (n2 + 1)) off then flipQ (Qubit.anc off) s
                   else s)) (Qubit.addr off) == false)
               then flipQ (Qubit.anc off) (execGates grec
                  (if chain s.addr s.sel k (off + (n2 + 1)) off then flipQ (Qubit.anc off) s
                   else s))
               else execGates grec
                  (if chain s.addr s.sel k (off + (n2 + 1)) off then flipQ (Qubit.anc off) s
                   else s)) :=
          toffoli_exec _ _ _ _ _ _
            (anc_ne_chainCtrl _ off (off + 1) (by omega))
            (fun hco => Qubit.noConfusion hco)
            (chainCtrl_ne_addr _ (off + 1) off)
        have haddr3 : readQ (execGates grec
              (if chain s.addr s.sel k (off + (n2 + 1)) off then flipQ (Qubit.anc off) s else s))
              (Qubit.addr off) = s.addr off := by
          rw [show ∀ u : SimState, readQ u (Qubit.addr off) = u.addr off from fun u => rfl,
            r_a]
        have hcond3 : ((chain s.addr s.sel (k + 2 ^ (off + 1)) (off + (n2 + 1)) (off + 1) == true)
              && ((s.addr off : Bool) == false))
            = chain s.addr s.sel (k + 2 ^ off) (off + (n2 + 1)) off := by
          rw [chain_succ s.addr s.sel (k + 2 ^ off) (off + (n2 + 1)) off (by omega), hk2b0]
          rw [chain_congr s.addr s.sel (k + 2 ^ off) (k + 2 ^ (off + 1)) (off + (n2 + 1))
            (off + 1) (fun j hj _ => hk2hi j (by omega))]
          simp
        obtain ⟨e3a, e3s, e3t, e3f, e3c, e3o⟩ :=
          condFlip_anc_fields
            ((chain s.addr s.sel (k + 2 ^ (off + 1)) (off + (n2 + 1)) (off + 1) == true)
              && ((s.addr off : Bool) == false)) off
            (execGates grec
              (if chain s.addr s.sel k (off + (n2 + 1)) off then flipQ (Qubit.anc off) s else s))
        refine ⟨toffoli true true (chainCtrl (off + (n2 + 1)) (off + 1)) (Qubit.addr off)
              (Qubit.anc off)
            ++ grec
            ++ toffoli true false (chainCtrl (off + (n2 + 1)) (off + 1)) (Qubit.addr off)
              (Qubit.anc off), ?_, ?_⟩
        · simp only [stepRightF]
          rw [hinc]
          simp only [hdist, selAnc_length]
          rw [if_neg (by omega), if_neg (by omega), if_neg (by omega)]
          rw [nthLast_ctlSeg0 off (n2 + 1) (by omega), nthLast_selAnc0 off (n2 + 1) (by omega),
            nthLast_selAnc off (n2 + 1) 1 (by omega)]
          rw [pathDrop_dropLast true k off n2, ctlSeg_dropLast off n2, selAnc_dropLast off n2,
            hgrec]
          rfl
        · rw [execGates_append, execGates_append, hg1, hg3, hctrl3, haddr3]
          refine ⟨e3a.trans r_a, e3s.trans r_s, e3t.trans r_t, e3f.trans r_f, ?_, ?_⟩
          · intro i h1 h2
            rcases Nat.eq_or_lt_of_le h1 with he | hgt
            · rw [← he]
              rw [e3c, r_o off (Or.inl (by omega)), hzero, Bool.xor_false]
              exact hcond3
            · rw [e3o i (by omega), r_c i (by omega) (by omega), e1a, e1s,
                chain_congr s.addr s.sel (k + 2 ^ (off + 1)) (k + 2 ^ off) (off + (n2 + 1)) i
                  (fun j hj _ => (hk2hi j (by omega)).symm)]
          · intro i hi
            rw [e3o i (by omega), r_o i (by omega), e1o i (by omega)]
      · -- distance exactly 2
        have hb1f : k.testBit (off + 1) = false := by
          cases hbb : k.testBit (off + 1)
          · rfl
          · exact absurd hbb hb1
        have hm1f : ((k >>> off) / 2).testBit 0 = false := by
          rw [← Nat.testBit_succ, testBit_shiftRight_one]
          exact hb1f
        have htin : leadTrues (lsbBits ((k >>> off) / 2) (n - 1)) = 0 := by
          rw [leadTrues_unfold _ _ (by omega), hm1f]
          simp
        have ht : leadTrues (lsbBits (k >>> off) n) = 1 := by
          rw [leadTrues_unfold _ _ hn1, hm0, hb0, if_pos rfl, htin]
        have hd2 : h_distance (true :: bitSeg k off n) (true :: bitSeg (k + 2 ^ off) off n)
            = 2 := by rw [hdist, ht]
        have hk2b1 : (k + 2 ^ off).testBit (off + 1) = true := by
          rw [hk2hi (off + 1) (by omega), testBit_add_pow_self, hb1f]
          rfl
        have hk2hi2 : ∀ j, off + 1 < j → (k + 2 ^ off).testBit j = k.testBit j := by
          intro j hj
          rw [hk2hi j (by omega), testBit_add_pow_high_false k (off + 1) hb1f j (by omega)]
        have hq1 : chainCtrl (off + n) (off + 1) = Qubit.anc (off + 1) := by
          rw [chainCtrl, if_neg (by omega)]
        refine ⟨[Gate.CX (Qubit.anc (off + 1)) (Qubit.anc off)]
            ++ toffoli true false (chainCtrl (off + n) (off + 2)) (Qubit.addr off)
              (Qubit.anc off)
            ++ [Gate.CX (chainCtrl (off + n) (off + 2)) (Qubit.anc (off + 1))], ?_, ?_⟩
        · simp only [stepRightF]
          rw [hinc]
          simp only [hd2, selAnc_length]
          rw [if_pos trivial, if_neg (show ¬ (n + 1 = 2) by omega)]
          rw [nthLast_selAnc0 off n hn1, nthLast_selAnc off n 1 (by omega),
            nthLast_selAnc off n 2 (by omega), nthLast_ctlSeg0 off n hn1, hq1]
          rfl
        · rw [execGates_append, execGates_append]
          have hg1 : execGates [Gate.CX (Qubit.anc (off + 1)) (Qubit.anc off)] s
              = (if chain s.addr s.sel k (off + n) (off + 1)
                 then flipQ (Qubit.anc off) s else s) := by
            rw [show execGates [Gate.CX (Qubit.anc (off + 1)) (Qubit.anc off)] s
                = (if readQ s (Qubit.anc (off + 1)) then flipQ (Qubit.anc off) s else s)
                from rfl,
              show readQ s (Qubit.anc (off + 1)) = s.anc (off + 1) from rfl,
              hinv (off + 1) (by omega) (by omega)]
          rw [hg1]
          obtain ⟨e1a, e1s, e1t, e1f, e1c, e1o⟩ :=
            condFlip_anc_fields (chain s.addr s.sel k (off + n) (off + 1)) off s
          set E1 := (if chain s.addr s.sel k (off + n) (off + 1) = true
              then flipQ (Qubit.anc off) s else s) with hE1
          have hctrl2 : readQ E1 (chainCtrl (off + n) (off + 2))
              = chain s.addr s.sel k (off + n) (off + 2) := by
            have h := readQ_chainCtrl_inv E1 (off + n) (off + 2) k (by omega)
              (fun h2 => by
                rw [e1o (off + 2) (by omega), e1a, e1s]
                exact hinv (off + 2) (by omega) h2)
            rw [h, e1a, e1s]
          have haddrE1 : readQ E1 (Qubit.addr off) = s.addr off := by
            rw [show readQ E1 (Qubit.addr off) = E1.addr off from rfl, e1a]
          have hg2 := toffoli_exec true false (chainCtrl (off + n) (off + 2)) (Qubit.addr off)
            (Qubit.anc off) E1
            (anc_ne_chainCtrl _ off (off + 2) (by omega))
            (fun hco => Qubit.noConfusion hco)
            (chainCtrl_ne_addr _ (off + 2) off)
          rw [hctrl2, haddrE1] at hg2
          rw [hg2]
          obtain ⟨e2a, e2s, e2t, e2f, e2c, e2o⟩ :=
            condFlip_anc_fields
              ((chain s.addr s.sel k (off + n) (off + 2) == true)
                && ((s.addr off : Bool) == false)) off E1
          set E2 := (if ((chain s.addr s.sel k (off + n) (off + 2) == true)
                && ((s.addr off : Bool) == false)) = true
              then flipQ (Qubit.anc off) E1 else E1) with hE2
          have hread3 : readQ E2 (chainCtrl (off + n) (off + 2))
              = chain s.addr s.sel k (off + n) (off + 2) := by
            have h := readQ_chainCtrl_inv E2 (off + n) (off + 2) k (by omega)
              (fun h2 => by
                rw [e2o (off + 2) (by omega), e1o (off + 2) (by omega), e2a, e1a, e2s, e1s]
                exact hinv (off + 2) (by omega) h2)
            rw [h, e2a, e1a, e2s, e1s]
          rw [show execGates [Gate.CX (chainCtrl (off + n) (off + 2)) (Qubit.anc (off + 1))] E2
              = (if readQ E2 (chainCtrl (off + n) (off + 2))
                 then flipQ (Qubit.anc (off + 1)) E2 else E2) from rfl,
            hread3]
          obtain ⟨e3a, e3s, e3t, e3f, e3c, e3o⟩ :=
            condFlip_anc_fields (chain s.addr s.sel k (off + n) (off + 2)) (off + 1) E2
          have hCk1 : chain s.addr s.sel k (off + n) (off + 1)
              = (chain s.addr s.sel k (off + n) (off + 2) && ((s.addr (off + 1) : Bool) == false)) := by
            rw [chain_succ s.addr s.sel k (off + n) (off + 1) (by omega), hb1f]
          have hC2k2 : chain s.addr s.sel (k + 2 ^ off) (off + n) (off + 2)
              = chain s.addr s.sel k (off + n) (off + 2) :=
            chain_congr s.addr s.sel _ _ _ _ (fun j hj _ => hk2hi2 j (by omega))
          have hCk2_1 : chain s.addr s.sel (k + 2 ^ off) (off + n) (off + 1)
              = (chain s.addr s.sel k (off + n) (off + 2) && ((s.addr (off + 1) : Bool) == true)) := by
            rw [chain_succ s.addr s.sel (k + 2 ^ off) (off + n) (off + 1) (by omega), hk2b1,
              hC2k2]
          have hCk2_0 : chain s.addr s.sel (k + 2 ^ off) (off + n) off
              = ((chain s.addr s.sel k (off + n) (off + 2) && ((s.addr (off + 1) : Bool) == true))
                && ((s.addr off : Bool) == false)) := by
            rw [chain_succ s.addr s.sel (k + 2 ^ off) (off + n) off (by omega), hk2b0, hCk2_1]
          refine ⟨e3a.trans (e2a.trans e1a), e3s.trans (e2s.trans e1s),
            e3t.trans (e2t.trans e1t), e3f.trans (e2f.trans e1f), ?_, ?_⟩
          · intro i h1 h2
            rcases (show i = off ∨ i = off + 1 ∨ off + 2 ≤ i by omega) with he | he | hge
            · rw [he, e3o off (by omega), e2c, e1c, hinv off (by omega) (by omega),
                chain_succ s.addr s.sel k (off + n) off (by omega), hb0, hCk1, hCk2_0]
              cases chain s.addr s.sel k (off + n) (off + 2) <;>
                cases s.addr off <;> cases s.addr (off + 1) <;> rfl
            · rw [he, e3c, e2o (off + 1) (by omega), e1o (off + 1) (by omega),
                hinv (off + 1) (by omega) (by omega), hCk1, hCk2_1]
              cases chain s.addr s.sel k (off + n) (off + 2) <;>
                cases s.addr (off + 1) <;> rfl
            · rw [e3o i (by omega), e2o i (by omega), e1o i (by omega),
                hinv i (by omega) h2,
                chain_congr s.addr s.sel k (k + 2 ^ off) (off + n) i
                  (fun j hj _ => (hk2hi2 j (by omega)).symm)]
          · intro i hi
            rw [e3o i (by omega), e2o i (by omega), e1o i (by omega)]
    · -- distance 1: the lowest bit of the window is clear
      have hb0f : k.testBit off = false := by
        cases hb : k.testBit off
        · rfl
        · exact absurd hb hb0
      have ht : leadTrues (lsbBits (k >>> off) n) = 0 := by
        rw [leadTrues_unfold _ _ hn1, testBit_shiftRight_zero, hb0f]
        simp
      have hd1 : h_distance (true :: bitSeg k off n) (true :: bitSeg (k + 2 ^ off) off n)
          = 1 := by rw [hdist, ht]
      refine ⟨[Gate.CX (chainCtrl (off + n) (off + 1)) (Qubit.anc off)], ?_, ?_⟩
      · simp only [stepRightF]
        rw [hinc]
        simp only [hd1, selAnc_length]
        rw [if_pos trivial, if_neg (show ¬ (n + 1 = 1) by omega)]
        rw [nthLast_selAnc0 off n hn1, nthLast_selAnc off n 1 (by omega)]
        rfl
      · have hctrl : readQ s (chainCtrl (off + n) (off + 1))
            = chain s.addr s.sel k (off + n) (off + 1) :=
          readQ_chainCtrl_inv s (off + n) (off + 1) k (by omega)
            (fun h => hinv (off + 1) (by omega) h)
        have hexec : execGates [Gate.CX (chainCtrl (off + n) (off + 1)) (Qubit.anc off)] s
            = (if readQ s (chainCtrl (off + n) (off + 1))
               then flipQ (Qubit.anc off) s else s) := rfl
        rw [hexec, hctrl]
        obtain ⟨ea, es, et, ef, ec, eo⟩ :=
          condFlip_anc_fields (chain s.addr s.sel k (off + n) (off + 1)) off s
        have hhigh := testBit_add_pow_high_false k off hb0f
        have hchainhigh : ∀ i, off < i →
            chain s.addr s.sel (k + 2 ^ off) (off + n) i
              = chain s.addr s.sel k (off + n) i :=
          fun i hi => chain_congr _ _ _ _ _ _ (fun j hj _ => hhigh j (by omega))
        have hbit2 : (k + 2 ^ off).testBit off = true := by
          rw [testBit_add_pow_self, hb0f]
          rfl
        refine ⟨ea, es, et, ef, ?_, ?_⟩
        · intro i hoi hiw
          rcases Nat.eq_or_lt_of_le hoi with he | hlt2
          · rw [← he]
            rw [ec, hinv off (by omega) (by omega),
              chain_succ s.addr s.sel k (off + n) off (by omega),
              chain_succ s.addr s.sel (k + 2 ^ off) (off + n) off (by omega),
              hchainhigh (off + 1) (by omega), hbit2, hb0f]
            cases chain s.addr s.sel k (off + n) (off + 1) <;>
              cases s.addr off <;> rfl
          · rw [eo i (by omega), hinv i (by omega) hiw, hchainhigh i (by omega)]
        · intro i hi
          exact eo i (by omega)

theorem execGate_invGate (g : Gate) (hok : gateOK g) (s : SimState) :
    execGate (execGate s g) (invGate g) = s := by
  cases g with
  | X q => simp [execGate, invGate, flipQ_flipQ]
  | CX c t =>
    simp only [invGate, execGate]
    by_cases hr : readQ s c
    · rw [if_pos hr]
      have hread : readQ (flipQ t s) c = readQ s c := by
        rw [readQ_flipQ, if_neg hok]
      rw [hread, if_pos hr, flipQ_flipQ]
    · rw [if_neg hr, if_neg hr]
  | CCX c0 c1 t =>
    simp only [invGate, execGate]
    by_cases hr : readQ s c0 && readQ s c1
    · rw [if_pos hr]
      have hread0 : readQ (flipQ t s) c0 = readQ s c0 := by
        rw [readQ_flipQ, if_neg (Ne.symm hok.1)]
      have hread1 : readQ (flipQ t s) c1 = readQ s c1 := by
        rw [readQ_flipQ, if_neg (Ne.symm hok.2)]
      rw [hread0, hread1, if_pos hr, flipQ_flipQ]
    · rw [if_neg hr, if_neg hr]
  | Z q => rfl
  | CZ c t => rfl
  | S q => rfl
  | Sinv q => rfl
  | payload k c => exact hok.elim

theorem invCircuit_exec :
    ∀ gs : List Gate, (∀ g ∈ gs, gateOK g) → ∀ s : SimState,
      execGates (invCircuit gs) (execGates gs s) = s := by
  intro gs
  induction gs with
  | nil => intro _ s; rfl
  | cons g rest ih =>
    intro hok s
    have hdecomp : invCircuit (g :: rest) = invCircuit rest ++ [invGate g] := by
      rw [invCircuit, List.reverse_cons, List.map_append, invCircuit]
      rfl
    rw [execGates_cons, hdecomp, execGates_append,
      ih (fun g2 h2 => hok g2 (by simp [h2])) (execGate s g)]
    exact execGate_invGate g (hok g (by simp)) s

theorem mem_toffoli (b0 b1 : Bool) (c0 c1 t : Qubit) (g : Gate)
    (hg : g ∈ toffoli b0 b1 c0 c1 t) :
    g = Gate.CCX c0 c1 t ∨ g = Gate.X c0 ∨ g = Gate.X c1 := by
  cases b0 <;> cases b1 <;> simp [toffoli] at hg <;> tauto

theorem toffoli_gateOK (b0 b1 : Bool) (c0 c1 t : Qubit) (h0 : t ≠ c0) (h1 : t ≠ c1) :
    ∀ g ∈ toffoli b0 b1 c0 c1 t, gateOK g := by
  intro g hg
  rcases mem_toffoli b0 b1 c0 c1 t g hg with rfl | rfl | rfl
  · exact ⟨h0, h1⟩
  · trivial
  · trivial

theorem SimState.ext2 (s t : SimState) (ha : ∀ i, s.addr i = t.addr i) (hs : s.sel = t.sel)
    (hn : ∀ i, s.anc i = t.anc i) (ht : ∀ i, s.tgt i = t.tgt i) (hf : s.fired = t.fired) :
    s = t := by
  cases s
  cases t
  simp only [SimState.mk.injEq]
  exact ⟨funext ha, hs, funext hn, funext ht, hf⟩

/-- Correctness of the recursive descent of `walkDown`: each level extends the
prefix-match chain one bit further down. -/
theorem walkDown_helper_exec (W k : Nat) :
    ∀ d, d < W → ∀ s : SimState,
      (∀ j, j < d → s.anc j = false) →
      s.anc d = chain s.addr s.sel k W d →
      ∃ g, walkDown_helper (bitSeg k 0 d) (ctlSeg 0 d) (ancSeg 0 (d + 1)) = some g ∧
        ((execGates g s).addr = s.addr ∧ (execGates g s).sel = s.sel ∧
         (execGates g s).tgt = s.tgt ∧ (execGates g s).fired = s.fired ∧
         (∀ j, j ≤ d → (execGates g s).anc j = chain s.addr s.sel k W j) ∧
         (∀ j, d < j → (execGates g s).anc j = s.anc j) ∧
         (∀ g2 ∈ g, gateOK g2)) := by
  intro d
  induction d with
  | zero =>
    intro _ s _ htop
    refine ⟨[], by simp [bitSeg, walkDown_helper], rfl, rfl, rfl, rfl, ?_, ?_, ?_⟩
    · intro j hj
      have hj0 : j = 0 := by omega
      rw [hj0]
      exact htop
    · intro j _
      rfl
    · intro g2 hg2
      simp at hg2
  | succ d ih =>
    intro hdW s hlow htop
    have hbs : bitSeg k 0 (d + 1) = k.testBit d :: bitSeg k 0 d := by
      rw [bitSeg_succ, Nat.zero_add]
    have hcs : ctlSeg 0 (d + 1) = Qubit.addr d :: ctlSeg 0 d := by
      rw [ctlSeg_succ, Nat.zero_add]
    have has : ancSeg 0 (d + 2) = Qubit.anc (d + 1) :: Qubit.anc d :: ancSeg 0 d := by
      rw [ancSeg_succ, ancSeg_succ, Nat.zero_add, Nat.zero_add]
    have hg1 := toffoli_exec (k.testBit d) true (Qubit.addr d) (Qubit.anc (d + 1))
      (Qubit.anc d) s (fun hco => Qubit.noConfusion hco)
      (fun hco => by injection hco with h2; omega)
      (fun hco => Qubit.noConfusion hco)
    have hcond : ((readQ s (Qubit.addr d) == k.testBit d)
          && (readQ s (Qubit.anc (d + 1)) == true))
        = chain s.addr s.sel k W d := by
      rw [show readQ s (Qubit.anc (d + 1)) = s.anc (d + 1) from rfl, htop,
        show readQ s (Qubit.addr d) = s.addr d from rfl,
        chain_succ s.addr s.sel k W d (by omega)]
      cases chain s.addr s.sel k W (d + 1) <;> cases s.addr d <;> cases k.testBit d <;> rfl
    rw [hcond] at hg1
    obtain ⟨ea, es, et, ef, ec, eo⟩ :=
      condFlip_anc_fields (chain s.addr s.sel k W d) d s
    have hancd : (if chain s.addr s.sel k W d then flipQ (Qubit.anc d) s else s).anc d
        = chain s.addr s.sel k W d := by
      rw [ec, hlow d (by omega)]
      simp
    obtain ⟨grest, hgrest, r_a, r_s, r_t, r_f, r_c, r_o, r_ok⟩ :=
      ih (by omega) (if chain s.addr s.sel k W d then flipQ (Qubit.anc d) s else s)
        (fun j hj => by rw [eo j (by omega)]; exact hlow j (by omega))
        (by rw [ea, es, hancd])
    have hanc1 : Qubit.anc d :: ancSeg 0 d = ancSeg 0 (d + 1) := by
      rw [ancSeg_succ, Nat.zero_add]
    refine ⟨toffoli (k.testBit d) true (Qubit.addr d) (Qubit.anc (d + 1)) (Qubit.anc d)
        ++ grest, ?_, ?_, ?_, ?_, ?_, ?_, ?_, ?_⟩
    · rw [hbs, hcs, has, walkDown_helper]
      simp only [List.head?_cons, List.tail_cons, List.get?_cons_zero,
        List.get?_cons_succ]
      rw [hanc1, hgrest]
      rfl
    · rw [execGates_append, hg1, r_a, ea]
    · rw [execGates_append, hg1, r_s, es]
    · rw [execGates_append, hg1, r_t, et]
    · rw [execGates_append, hg1, r_f, ef]
    · intro j hj
      rw [execGates_append, hg1]
      rcases Nat.lt_or_ge j (d + 1) with hjd | hjd
      · rw [r_c j (by omega), ea, es]
      · have hje : j = d + 1 := by omega
        rw [hje, r_o (d + 1) (by omega), eo (d + 1) (by omega)]
        exact htop
    · intro j hj
      rw [execGates_append, hg1, r_o j (by omega), eo j (by omega)]
    · intro g2 hg2
      rcases List.mem_append.mp hg2 with hmem | hmem
      · exact toffoli_gateOK _ _ _ _ _ (fun hco => Qubit.noConfusion hco)
          (fun hco => by injection hco with h2; omega) g2 hmem
      · exact r_ok g2 hmem

/-- Correctness of the full `walkDown` descent: from all-clear ancilla it
installs the prefix-match chain for the given key, touching nothing else, and
emits only invertible (payload-free) gates. -/
theorem walkDown_exec (W k : Nat) (hw : 1 ≤ W) (s : SimState)
    (hanc : ∀ i, i < W → s.anc i = false) :
    ∃ g, walkDown (true :: bitSeg k 0 W) (Qubit.sel :: ctlSeg 0 W) (ancSeg 0 W) = some g ∧
      ((execGates g s).addr = s.addr ∧ (execGates g s).sel = s.sel ∧
       (execGates g s).tgt = s.tgt ∧ (execGates g s).fired = s.fired ∧
       (∀ i, i < W → (execGates g s).anc i = chain s.addr s.sel k W i) ∧
       (∀ i, W ≤ i → (execGates g s).anc i = s.anc i) ∧
       (∀ g2 ∈ g, gateOK g2)) := by
  obtain ⟨d, rfl⟩ : ∃ d, W = d + 1 := ⟨W - 1, by omega⟩
  have hb2 : bitSeg k 0 (d + 1) = k.testBit d :: bitSeg k 0 d := by
    rw [bitSeg_succ, Nat.zero_add]
  have hq2 : ctlSeg 0 (d + 1) = Qubit.addr d :: ctlSeg 0 d := by
    rw [ctlSeg_succ, Nat.zero_add]
  have ha2 : ancSeg 0 (d + 1) = Qubit.anc d :: ancSeg 0 d := by
    rw [ancSeg_succ, Nat.zero_add]
  have hg1 := toffoli_exec true (k.testBit d) Qubit.sel (Qubit.addr d) (Qubit.anc d) s
    (fun hco => Qubit.noConfusion hco) (fun hco => Qubit.noConfusion hco)
    (fun hco => Qubit.noConfusion hco)
  have hcond : ((readQ s Qubit.sel == true) && (readQ s (Qubit.addr d) == k.testBit d))
      = chain s.addr s.sel k (d + 1) d := by
    rw [show readQ s Qubit.sel = s.sel from rfl,
      show readQ s (Qubit.addr d) = s.addr d from rfl,
      chain_succ s.addr s.sel k (d + 1) d (by omega), chain_width]
    cases s.sel <;> cases s.addr d <;> cases k.testBit d <;> rfl
  rw [hcond] at hg1
  obtain ⟨ea, es, et, ef, ec, eo⟩ :=
    condFlip_anc_fields (chain s.addr s.sel k (d + 1) d) d s
  have hEd : (if chain s.addr s.sel k (d + 1) d then flipQ (Qubit.anc d) s else s).anc d
      = chain s.addr s.sel k (d + 1) d := by
    rw [ec, hanc d (by omega)]
    simp
  obtain ⟨grest, hgrest, r_a, r_s, r_t, r_f, r_c, r_o, r_ok⟩ :=
    walkDown_helper_exec (d + 1) k d (by omega)
      (if chain s.addr s.sel k (d + 1) d then flipQ (Qubit.anc d) s else s)
      (fun j hj => by rw [eo j (by omega)]; exact hanc j (by omega))
      (by rw [ea, es, hEd])
  refine ⟨toffoli true (k.testBit d) Qubit.sel (Qubit.addr d) (Qubit.anc d) ++ grest,
    ?_, ?_, ?_, ?_, ?_, ?_, ?_, ?_⟩
  · simp only [walkDown]
    rw [hb2, hq2, ha2]
    simp only [List.get?_cons_zero, List.get?_cons_succ, List.drop_succ_cons,
      List.drop_zero]
    rw [ha2] at hgrest
    rw [hgrest]
    rfl
  · rw [execGates_append, hg1, r_a, ea]
  · rw [execGates_append, hg1, r_s, es]
  · rw [execGates_append, hg1, r_t, et]
  · rw [execGates_append, hg1, r_f, ef]
  · intro i hi
    rw [execGates_append, hg1, r_c i (by omega), ea, es]
  · intro i hi
    rw [execGates_append, hg1, r_o i (by omega), eo i (by omega)]
  · intro g2 hg2
    rcases List.mem_append.mp hg2 with hmem | hmem
    · exact toffoli_gateOK _ _ _ _ _ (fun hco => Qubit.noConfusion hco)
        (fun hco => Qubit.noConfusion hco) g2 hmem
    · exact r_ok g2 hmem

theorem lsbBits_inj (n k1 k2 : Nat) (h1 : k1 < 2 ^ n) (h2 : k2 < 2 ^ n)
    (he : lsbBits k1 n = lsbBits k2 n) : k1 = k2 := by
  apply Nat.eq_of_testBit_eq
  intro j
  rcases Nat.lt_or_ge j n with hj | hj
  · have hbit := congrArg (fun l => l.get? j) he
    simp only [lsbBits, List.get?_map, List.get?_range hj, Option.map_some'] at hbit
    exact Option.some.inj hbit
  · rw [Nat.testBit_lt_two_pow
        (Nat.lt_of_lt_of_le h1 (Nat.pow_le_pow_right (by omega) hj)),
      Nat.testBit_lt_two_pow
        (Nat.lt_of_lt_of_le h2 (Nat.pow_le_pow_right (by omega) hj))]

theorem bitSeg_zero_inj (k1 k2 W : Nat) (h1 : k1 < 2 ^ W) (h2 : k2 < 2 ^ W)
    (he : bitSeg k1 0 W = bitSeg k2 0 W) : k1 = k2 := by
  rw [bitSeg_eq_reverse_lsb, bitSeg_eq_reverse_lsb] at he
  have he2 := List.reverse_injective he
  rw [Nat.shiftRight_zero, Nat.shiftRight_zero] at he2
  exact lsbBits_inj W k1 k2 h1 h2 he2

theorem range_map_shift (n a : Nat) :
    (List.range (n + 1)).map (fun ii => ii + a)
      = a :: (List.range n).map (fun ii => ii + (a + 1)) := by
  rw [List.range_succ_eq_map]
  simp only [List.map_cons, List.map_map, Nat.zero_add]
  refine congrArg (List.cons a) ?_
  apply List.map_congr_left
  intro x _
  simp only [Function.comp_apply, Nat.succ_eq_add_one]
  omega

theorem applyAndStepF_unfold (fuel : Nat) (ops : List Nat) (sbT ebT : List Bool)
    (qbs anc : List Qubit) :
    applyAndStepF fuel ops sbT ebT qbs anc
      = (if sbT = ebT then do
          let k ← ops.head?
          let a ← nthLast anc 0
          pure [Gate.payload k a]
        else
          match fuel with
          | 0 => none
          | fuel + 1 => do
            let k ← ops.head?
            let a ← nthLast anc 0
            let step ← stepRight sbT qbs anc
            let inc ← incrementBooleanTree sbT
            let rest ← applyAndStepF fuel ops.tail inc ebT qbs anc
            pure ([Gate.payload k a] ++ step ++ rest)) := by
  rw [applyAndStepF.eq_def]

/-- Correctness of the `applyAndStep` loop: starting in the chain state of
`k`, with keys `k, k+1, …, k+cnt`, it fires exactly the keys whose chain is
active at the root (i.e. the selected address), in order, and leaves the
ancilla register in the chain state of `k + cnt`. -/
theorem applyAndStepF_exec (W : Nat) (hw : 1 ≤ W) :
    ∀ cnt fuel k : Nat, ∀ s : SimState, cnt ≤ fuel → k + cnt < 2 ^ W →
      (∀ i, i < W → s.anc i = chain s.addr s.sel k W i) →
      ∃ g, applyAndStepF fuel ((List.range (cnt + 1)).map (fun ii => ii + k))
          (true :: bitSeg k 0 W) (true :: bitSeg (k + cnt) 0 W)
          (ctlSeg 0 W) (Qubit.sel :: ancSeg 0 W) = some g ∧
        ((execGates g s).addr = s.addr ∧ (execGates g s).sel = s.sel ∧
         (execGates g s).tgt = s.tgt ∧
         (∀ i, i < W → (execGates g s).anc i = chain s.addr s.sel (k + cnt) W i) ∧
         (∀ i, W ≤ i → (execGates g s).anc i = s.anc i) ∧
         (execGates g s).fired = s.fired
            ++ ((List.range (cnt + 1)).map (fun ii => ii + k)).filter
                 (fun k2 => chain s.addr s.sel k2 W 0)) := by
  intro cnt
  induction cnt with
  | zero =>
    intro fuel k s _ hbound hinv
    simp only [Nat.add_zero]
    have hops : (List.range (0 + 1)).map (fun ii => ii + k) = [k] := by
      rw [Nat.zero_add, show List.range 1 = [0] from rfl, List.map_cons, List.map_nil,
        Nat.zero_add]
    have hg1 : execGates [Gate.payload k (Qubit.anc 0)] s
        = if chain s.addr s.sel k W 0 then { s with fired := s.fired ++ [k] } else s := by
      show (if readQ s (Qubit.anc 0) then { s with fired := s.fired ++ [k] } else s) = _
      rw [show readQ s (Qubit.anc 0) = s.anc 0 from rfl, hinv 0 (by omega)]
    obtain ⟨pa, ps, pt, pc, pf⟩ := condPayload_fields (chain s.addr s.sel k W 0) k s
    refine ⟨[Gate.payload k (Qubit.anc 0)], ?_, ?_, ?_, ?_, ?_, ?_, ?_⟩
    · rw [applyAndStepF_unfold]
      rw [if_pos rfl, hops, nthLast_selAnc0 0 W hw]
      rfl
    · rw [hg1, pa]
    · rw [hg1, ps]
    · rw [hg1, pt]
    · intro i hi
      rw [hg1, pc i]
      exact hinv i hi
    · intro i _
      rw [hg1, pc i]
    · rw [hg1, pf, hops]
      cases hch : chain s.addr s.sel k W 0 <;> simp [List.filter, hch]
  | succ cnt ih =>
    intro fuel k s hcf hbound hinv
    have hops : (List.range (cnt + 1 + 1)).map (fun ii => ii + k)
        = k :: (List.range (cnt + 1)).map (fun ii => ii + (k + 1)) :=
      range_map_shift (cnt + 1) k
    have hne : (true :: bitSeg k 0 W) ≠ (true :: bitSeg (k + (cnt + 1)) 0 W) := by
      intro he
      have hb : bitSeg k 0 W = bitSeg (k + (cnt + 1)) 0 W := (List.cons.inj he).2
      have := bitSeg_zero_inj k (k + (cnt + 1)) W (by omega) hbound hb
      omega
    cases fuel with
    | zero => exact absurd hcf (by omega)
    | succ f =>
      have hg1 : execGates [Gate.payload k (Qubit.anc 0)] s
          = if chain s.addr s.sel k W 0 then { s with fired := s.fired ++ [k] }
            else s := by
        show (if readQ s (Qubit.anc 0) then { s with fired := s.fired ++ [k] } else s) = _
        rw [show readQ s (Qubit.anc 0) = s.anc 0 from rfl, hinv 0 (by omega)]
      obtain ⟨pa, ps, pt, pc, pf⟩ := condPayload_fields (chain s.addr s.sel k W 0) k s
      obtain ⟨gstep, hgstep, t_a, t_s, t_t, t_f, t_c, t_o⟩ :=
        stepRightF_exec (W + 1) W 0 k
          (if chain s.addr s.sel k W 0 then { s with fired := s.fired ++ [k] } else s)
          (by omega) hw (by rw [Nat.shiftRight_zero]; omega)
          (fun i _ hi => by
            rw [Nat.zero_add] at hi
            rw [pa, ps, pc i, Nat.zero_add]
            exact hinv i hi)
      have hstep : stepRight (true :: bitSeg k 0 W) (ctlSeg 0 W)
          (Qubit.sel :: ancSeg 0 W) = some gstep := by
        show stepRightF (true :: bitSeg k 0 W).length (true :: bitSeg k 0 W)
          (ctlSeg 0 W) (Qubit.sel :: ancSeg 0 W) = some gstep
        rw [show (true :: bitSeg k 0 W).length = W + 1 from by
          rw [List.length_cons, bitSeg_length]]
        exact hgstep
      have hinc : incrementBooleanTree (true :: bitSeg k 0 W)
          = some (true :: bitSeg (k + 1) 0 W) := by
        have hip := increment_path k 0 W (by rw [Nat.shiftRight_zero]; omega)
        rw [pow_zero] at hip
        exact hip
      have hsum : k + 1 + cnt = k + (cnt + 1) := by omega
      obtain ⟨grest, hgrest, r_a, r_s, r_t, r_c, r_o, r_f⟩ :=
        ih f (k + 1)
          (execGates gstep
            (if chain s.addr s.sel k W 0 then { s with fired := s.fired ++ [k] } else s))
          (by omega) (by omega)
          (fun i hi => by
            have hc := t_c i (by omega) (by omega)
            rw [pow_zero, Nat.zero_add, pa, ps] at hc
            rw [t_a, t_s, pa, ps]
            exact hc)
      rw [hsum] at hgrest
      refine ⟨[Gate.payload k (Qubit.anc 0)] ++ gstep ++ grest,
        ?_, ?_, ?_, ?_, ?_, ?_, ?_⟩
      · rw [applyAndStepF_unfold]
        rw [if_neg hne, hops, hstep, hinc]
        simp only [List.head?_cons, List.tail_cons, Option.bind_eq_bind,
          Option.some_bind, nthLast_selAnc0 0 W hw]
        rw [hgrest]
        rfl
      · rw [execGates_append, execGates_append, hg1, r_a, t_a, pa]
      · rw [execGates_append, execGates_append, hg1, r_s, t_s, ps]
      · rw [execGates_append, execGates_append, hg1, r_t, t_t, pt]
      · intro i hi
        rw [execGates_append, execGates_append, hg1, r_c i hi, t_a, t_s, pa, ps, hsum]
      · intro i hi
        rw [execGates_append, execGates_append, hg1, r_o i hi,
          t_o i (Or.inr (by omega)), pc i]
      · rw [execGates_append, execGates_append, hg1, r_f, t_f, pf, t_a, t_s, pa, ps,
          hops]
        simp only [List.filter_cons]
        rw [List.append_assoc]
        cases hch : chain s.addr s.sel k W 0 <;> simp [hch]

/-- Net effect of the tree-strategy circuit: descent, apply-and-step sweep,
inverse ascent.  On a register with all-clear ancilla it restores every
register bit and fires exactly the in-range keys whose chain is active. -/
theorem treeCircuit_exec (width pos1 pos2 : Nat) (hw : 1 ≤ width) (hpos : pos1 < pos2)
    (hbound : pos2 ≤ 2 ^ width) (s : SimState) (hanc : ∀ i, s.anc i = false) :
    ∃ gs, treeCircuit width pos1 pos2 = some gs ∧
      ((execGates gs s).addr = s.addr ∧ (execGates gs s).sel = s.sel ∧
       (execGates gs s).tgt = s.tgt ∧ (∀ i, (execGates gs s).anc i = s.anc i) ∧
       (execGates gs s).fired = s.fired
          ++ ((List.range (pos2 - pos1)).map (fun ii => ii + pos1)).filter
               (fun k2 => chain s.addr s.sel k2 width 0)) := by
  obtain ⟨cnt, hcnt⟩ : ∃ cnt, pos2 - pos1 = cnt + 1 := ⟨pos2 - pos1 - 1, by omega⟩
  have hp1 : pos1 < 2 ^ width := by omega
  have hsn : constructBooleanTree pos1 width = bitSeg pos1 0 width := by
    rw [constructBooleanTree_spec pos1 width hw hp1, bitSeg_zero_eq_msb]
  have hen : constructBooleanTree (pos2 - 1) width = bitSeg (pos2 - 1) 0 width := by
    rw [constructBooleanTree_spec (pos2 - 1) width hw (by omega), bitSeg_zero_eq_msb]
  obtain ⟨gdown, hgdown, d_a, d_s, d_t, d_f, d_c, d_o, d_ok⟩ :=
    walkDown_exec width pos1 hw s (fun i _ => hanc i)
  obtain ⟨gapp, hgapp, a_a, a_s, a_t, a_c, a_o, a_f⟩ :=
    applyAndStepF_exec width hw cnt (cnt + 1) pos1 (execGates gdown s) (by omega)
      (by omega) (fun i hi => by rw [d_c i hi, d_a, d_s])
  have hpc : pos1 + cnt = pos2 - 1 := by omega
  rw [hpc] at hgapp a_c
  obtain ⟨gup, hgup, u_a, u_s, u_t, u_f, u_c, u_o, u_ok⟩ :=
    walkDown_exec width (pos2 - 1) hw
      ⟨s.addr, s.sel, s.anc, s.tgt, (execGates gapp (execGates gdown s)).fired⟩
      (fun i _ => hanc i)
  have hup : execGates gup
      ⟨s.addr, s.sel, s.anc, s.tgt, (execGates gapp (execGates gdown s)).fired⟩
      = execGates gapp (execGates gdown s) := by
    apply SimState.ext2
    · intro i
      rw [u_a, a_a, d_a]
    · rw [u_s, a_s, d_s]
    · intro i
      rcases Nat.lt_or_ge i width with hi | hi
      · have h2 := a_c i hi
        rw [d_a, d_s] at h2
        rw [u_c i hi, h2]
      · rw [u_o i hi, a_o i hi, d_o i hi]
    · intro i
      rw [u_t, a_t, d_t]
    · rw [u_f]
  have hfin : execGates (gdown ++ gapp ++ invCircuit gup) s
      = ⟨s.addr, s.sel, s.anc, s.tgt, (execGates gapp (execGates gdown s)).fired⟩ := by
    conv_lhs => rw [execGates_append, execGates_append, ← hup]
    exact invCircuit_exec gup u_ok _
  refine ⟨gdown ++ gapp ++ invCircuit gup, ?_, ?_, ?_, ?_, ?_, ?_⟩
  · simp only [treeCircuit]
    rw [hsn, hen, hgdown, hcnt]
    have happ2 : applyAndStep ((List.range (cnt + 1)).map (fun ii => ii + pos1))
        (true :: bitSeg pos1 0 width) (true :: bitSeg (pos2 - 1) 0 width)
        (ctlSeg 0 width) (Qubit.sel :: ancSeg 0 width) = some gapp := by
      show applyAndStepF ((List.range (cnt + 1)).map (fun ii => ii + pos1)).length
        ((List.range (cnt + 1)).map (fun ii => ii + pos1))
        (true :: bitSeg pos1 0 width) (true :: bitSeg (pos2 - 1) 0 width)
        (ctlSeg 0 width) (Qubit.sel :: ancSeg 0 width) = some gapp
      rw [List.length_map, List.length_range]
      exact hgapp
    rw [happ2, hgup]
    rfl
  · rw [hfin]
  · rw [hfin]
  · rw [hfin]
  · intro i
    rw [hfin]
  · rw [hfin, a_f, d_f, d_a, d_s, hcnt]

/-- C3: for every key range `[pos1, pos2)` inside the address space, the
instruction sequence produced by the tree strategy (`walkDown`, then
`applyAndStep`, then the inverse of the `walkDown` built from the end path)
and the sequence produced by the walk strategy (`applyAndWalk`/`qrom`) have
the identical net effect on the address, select, ancilla, and target bits and
fire the same payload operators in the same order, for every address and
enable value. -/
theorem claim3_strategies_equivalent (width pos1 pos2 : Nat) (s : SimState)
    (hw : 1 ≤ width) (hpos : pos1 < pos2) (hbound : pos2 ≤ 2 ^ width)
    (hanc : ∀ i, s.anc i = false) :
    ∃ gs, treeCircuit width pos1 pos2 = some gs ∧
      ((execGates gs s).addr = (execGates (applyAndWalk width pos1 pos2) s).addr ∧
       (execGates gs s).sel = (execGates (applyAndWalk width pos1 pos2) s).sel ∧
       (∀ i, (execGates gs s).anc i = (execGates (applyAndWalk width pos1 pos2) s).anc i) ∧
       (execGates gs s).tgt = (execGates (applyAndWalk width pos1 pos2) s).tgt ∧
       (execGates gs s).fired = (execGates (applyAndWalk width pos1 pos2) s).fired) := by
  obtain ⟨gs, hgs, t_a, t_s, t_t, t_c, t_f⟩ :=
    treeCircuit_exec width pos1 pos2 hw hpos hbound s hanc
  obtain ⟨q_a, q_s, q_t, q_c, q_f⟩ :=
    qromGates_exec width hw ((List.range (pos2 - pos1)).map (fun ii => ii + pos1)) s
      (chain_lt_range_map (pos2 - pos1) pos1)
      (fun k hk => by
        have hm := (mem_keyRange k pos1 pos2).mp hk
        omega)
      hanc
  refine ⟨gs, hgs, ?_, ?_, ?_, ?_, ?_⟩
  · rw [t_a]
    exact q_a.symm
  · rw [t_s]
    exact q_s.symm
  · intro i
    rw [t_c i, hanc i]
    exact (q_c i).symm
  · rw [t_t]
    exact q_t.symm
  · rw [t_f]
    exact q_f.symm

theorem claim3_witness :
    (1 ≤ 1 ∧ 0 < 1 ∧ 1 ≤ 2 ^ 1) ∧
    (∃ gs, treeCircuit 1 0 1 = some gs ∧
      ((execGates gs ⟨fun j => Nat.testBit 0 j, true, fun _ => false, fun _ => false,
          []⟩).addr
        = (execGates (applyAndWalk 1 0 1) ⟨fun j => Nat.testBit 0 j, true,
            fun _ => false, fun _ => false, []⟩).addr ∧
       (execGates gs ⟨fun j => Nat.testBit 0 j, true, fun _ => false, fun _ => false,
          []⟩).sel
        = (execGates (applyAndWalk 1 0 1) ⟨fun j => Nat.testBit 0 j, true,
            fun _ => false, fun _ => false, []⟩).sel ∧
       (∀ i, (execGates gs ⟨fun j => Nat.testBit 0 j, true, fun _ => false,
          fun _ => false, []⟩).anc i
        = (execGates (applyAndWalk 1 0 1) ⟨fun j => Nat.testBit 0 j, true,
            fun _ => false, fun _ => false, []⟩).anc i) ∧
       (execGates gs ⟨fun j => Nat.testBit 0 j, true, fun _ => false, fun _ => false,
          []⟩).tgt
        = (execGates (applyAndWalk 1 0 1) ⟨fun j => Nat.testBit 0 j, true,
            fun _ => false, fun _ => false, []⟩).tgt ∧
       (execGates gs ⟨fun j => Nat.testBit 0 j, true, fun _ => false, fun _ => false,
          []⟩).fired
        = (execGates (applyAndWalk 1 0 1) ⟨fun j => Nat.testBit 0 j, true,
            fun _ => false, fun _ => false, []⟩).fired)) :=
  ⟨⟨by norm_num, by norm_num, by norm_num⟩,
    claim3_strategies_equivalent 1 0 1
      ⟨fun j => Nat.testBit 0 j, true, fun _ => false, fun _ => false, []⟩
      (by norm_num) (by norm_num) (by norm_num) (fun _ => rfl)⟩

theorem controlled_pauli_gate_spec :
    ∀ (ps : List Pauli) (ctrl : Qubit) (tqs : List Qubit),
      controlled_pauli_gate ps ctrl tqs
        = ((ps.zip tqs).map (fun pt => axisGatesSpec ctrl pt.2 pt.1)).flatten := by
  intro ps
  induction ps with
  | nil =>
    intro ctrl tqs
    rfl
  | cons p ps ih =>
    intro ctrl tqs
    cases tqs with
    | nil => rfl
    | cons tq tqs =>
      rw [List.zip_cons_cons, List.map_cons, List.flatten_cons, ← ih ctrl tqs]
      cases p <;> rfl

/-- C7: the generator built for term `i` prepends exactly one unconditional
`Z` on the activation wire when the coefficient is negative and nothing
otherwise, followed by the per-axis conditional instructions: nothing for
`I`, a controlled flip for `X`, a controlled phase for `Z`, and a controlled
flip conjugated by `S⁻¹`/`S` phase rotations on the target for `Y`. -/
theorem claim7_sign_and_axis (terms : List (List Pauli × ℚ)) (i : Nat)
    (hi : i < terms.length) (ctrl : Qubit) (qubits : List Qubit) :
    ∃ gen, (convert_hamiltonian_terms_to_operators terms).get? i = some gen ∧
      gen ctrl qubits
        = (if (terms.get ⟨i, hi⟩).2 < 0 then [Gate.Z ctrl] else [])
            ++ (((terms.get ⟨i, hi⟩).1.zip qubits).map
                  (fun pt => axisGatesSpec ctrl pt.2 pt.1)).flatten := by
  have hget : (convert_hamiltonian_terms_to_operators terms).get? i
      = some (if (terms.get ⟨i, hi⟩).2 < 0
          then fun ctrl qubits =>
            [Gate.Z ctrl] ++ controlled_pauli_gate (terms.get ⟨i, hi⟩).1 ctrl qubits
          else fun ctrl qubits =>
            controlled_pauli_gate (terms.get ⟨i, hi⟩).1 ctrl qubits) := by
    rw [convert_hamiltonian_terms_to_operators, List.get?_map, List.get?_eq_get hi]
    rfl
  refine ⟨_, hget, ?_⟩
  by_cases h : (terms.get ⟨i, hi⟩).2 < 0
  · simp only [if_pos h]
    rw [controlled_pauli_gate_spec]
  · simp only [if_neg h]
    rw [controlled_pauli_gate_spec, List.nil_append]

theorem claim7_witness :
    (0 < ([([Pauli.X], (-1 : ℚ))] : List (List Pauli × ℚ)).length) ∧
    (∃ gen, (convert_hamiltonian_terms_to_operators [([Pauli.X], (-1 : ℚ))]).get? 0
        = some gen ∧
      gen Qubit.sel [Qubit.tgt 0]
        = (if (([([Pauli.X], (-1 : ℚ))] : List (List Pauli × ℚ)).get
              ⟨0, by norm_num⟩).2 < 0
           then [Gate.Z Qubit.sel] else [])
            ++ (((([([Pauli.X], (-1 : ℚ))] : List (List Pauli × ℚ)).get
                  ⟨0, by norm_num⟩).1.zip [Qubit.tgt 0]).map
                  (fun pt => axisGatesSpec Qubit.sel pt.2 pt.1)).flatten) :=
  ⟨by norm_num,
    claim7_sign_and_axis [([Pauli.X], (-1 : ℚ))] 0 (by norm_num) Qubit.sel [Qubit.tgt 0]⟩

end QSPSelV
